import Mathlib

/-!
# Verification of the eniGOma cipher engine

A shallow embedding, in Lean 4, of the core cipher engine of the eniGOma
repository (a configurable, Unicode-capable Enigma-machine simulator written
in Go), together with theorems settling the specification claims about it.

Conventions of the embedding:

* Go `rune` is modelled as `Char`; Go strings are modelled as `List Char`
  (a Go `string` ranged over with `for _, r := range s` yields runes).
* Go `int` values that are always non-negative in the modelled flows
  (alphabet indices, rotor positions, ring settings, sizes) are modelled as
  `Nat`.  Where the Go source computes `(x + a - b + n) % n` on ints, the
  embedding computes `(x + a + n - b) % n` on `Nat`; the two agree whenever
  `b ≤ n`, which holds at every call site because ring settings and
  positions are kept normalized into `[0, n)`.
* Fallible Go functions (returning `(T, error)`) are modelled as
  `Option`-valued functions; `none` is the error case.
* Go maps used as dictionaries are modelled as association lists; the only
  map whose iteration order is observable (`SetPairsFromMap`) is exercised
  in this file with at most one entry per reciprocal orbit at a time, where
  the order is immaterial.
* `crypto/rand` is modelled by threading an explicit finite supply of
  random numbers (`List Nat`); an exhausted supply corresponds to a failure
  of the randomness source, which the Go code also treats as an error.
-/

namespace Enigoma

/-- Sequential `Option`-valued map, the shape of the Go loops that convert a
sequence element-by-element and abort at the first error. -/
def mapOpt {α β : Type} (f : α → Option β) : List α → Option (List β)
  | [] => some []
  | a :: s => do
    let b ← f a
    let bs ← mapOpt f s
    pure (b :: bs)

theorem mapOpt_forall₂ {α β : Type} (f : α → Option β) :
    ∀ {s : List α} {l : List β}, mapOpt f s = some l →
      List.Forall₂ (fun a b => f a = some b) s l := by
  intro s
  induction s with
  | nil => intro l h; simp [mapOpt] at h; subst h; exact List.Forall₂.nil
  | cons a s ih =>
    intro l h
    simp only [mapOpt, Option.bind_eq_bind, Option.bind_eq_some, Option.pure_def,
      Option.some_inj] at h
    obtain ⟨b, hb, bs, hbs, rfl⟩ := h
    exact List.Forall₂.cons hb (ih hbs)

theorem mapOpt_length {α β : Type} {f : α → Option β} {s : List α} {l : List β}
    (h : mapOpt f s = some l) : l.length = s.length :=
  ((mapOpt_forall₂ f h).length_eq).symm

theorem isSome_bind_congr {α β γ : Type} (x : Option α) (f : α → Option β)
    (g : α → Option γ) (h : ∀ a, (f a).isSome = (g a).isSome) :
    (x >>= f).isSome = (x >>= g).isSome := by
  cases x with
  | none => rfl
  | some a => simpa using h a

/-! ## Alphabet (internal/alphabet/alphabet.go) -/

/-- `Alphabet` from `internal/alphabet/alphabet.go`: an ordered list of
runes; the Go struct's `runeToID` map and `size` field are derived data
(`runeToID[r] = first index of r`, `size = len(runes)`), recovered here by
`runeToIndex` and `size`. -/
structure Alphabet where
  runes : List Char
deriving Repr, DecidableEq

namespace Alphabet

/-- `alphabet.New`: rejects an empty list and any duplicate rune, otherwise
keeps the runes in their original order. -/
def new (runes : List Char) : Option Alphabet :=
  if runes.isEmpty then none
  else if runes.Nodup then some ⟨runes⟩ else none

/-- `Alphabet.Size`. -/
def size (a : Alphabet) : Nat := a.runes.length

/-- Lookup in the `runeToID` map: the map is built by
`for i, r := range runes { runeToID[r] = i }`, so on the duplicate-free
alphabets produced by `new` it maps a rune to its unique index. -/
def lookupIdx (c : Char) : List Char → Option Nat
  | [] => none
  | r :: rest => if r = c then some 0 else (lookupIdx c rest).map (· + 1)

/-- `Alphabet.RuneToIndex`. -/
def runeToIndex (a : Alphabet) (r : Char) : Option Nat :=
  lookupIdx r a.runes

/-- `Alphabet.IndexToRune`. -/
def indexToRune (a : Alphabet) (idx : Nat) : Option Char :=
  a.runes[idx]?

/-- `Alphabet.Contains`. -/
def containsRune (a : Alphabet) (r : Char) : Bool :=
  (a.runeToIndex r).isSome

/-- `Alphabet.ValidateString`: returns the first rune not in the alphabet
(the error case), or `none` when all runes are valid. -/
def validateString (a : Alphabet) (s : List Char) : Option Char :=
  s.find? (fun r => !(a.containsRune r))

/-- `Alphabet.StringToIndices`. -/
def stringToIndices (a : Alphabet) (s : List Char) : Option (List Nat) :=
  mapOpt a.runeToIndex s

/-- `Alphabet.IndicesToString`. -/
def indicesToString (a : Alphabet) (idxs : List Nat) : Option (List Char) :=
  mapOpt a.indexToRune idxs

end Alphabet

/-! ## Rotor (internal/rotor/rotor.go) -/

/-- `BasicRotor`: wiring tables over alphabet indices, notch indices, and the
mutable position / ring setting.  List indexing with `getD _ 0` models Go
slice indexing (in-range at every modelled call site). -/
structure Rotor where
  id : String
  forwardMap : List Nat
  backwardMap : List Nat
  notches : List Nat
  position : Nat
  ringSetting : Nat
  size : Nat
deriving Repr, DecidableEq, Inhabited

namespace Rotor

/-- The backward-map construction loop of `NewRotor`: for each entry
`o = forwardMap[i]` (in order), fail if `used[o]` is already set, otherwise
record `backwardMap[o] = i` and mark `used[o]`. -/
def buildBackward : List Nat → Nat → List Nat → List Bool → Option (List Nat)
  | [], _, back, _ => some back
  | o :: rest, i, back, used =>
    if used.getD o false then none
    else buildBackward rest (i + 1) (back.set o i) (used.set o true)

/-- `rotor.NewRotor`: validates the mapping length, converts the mapping
runes to indices (error on a rune outside the alphabet), builds the inverse
table while rejecting duplicate outputs, and converts the notch runes.
The Go loop interleaves rune conversion with the duplicate check; both
failures are `none` here, so the separation is observationally equal. -/
def newRotor (id : String) (alph : Alphabet) (forwardMapping : List Char)
    (notches : List Char) : Option Rotor :=
  if forwardMapping.length ≠ alph.size then none
  else do
    let forwardMap ← alph.stringToIndices forwardMapping
    let backwardMap ← buildBackward forwardMap 0
      (List.replicate alph.size 0) (List.replicate alph.size false)
    let notchIndices ← mapOpt alph.runeToIndex notches
    some { id := id, forwardMap := forwardMap, backwardMap := backwardMap,
           notches := notchIndices, position := 0, ringSetting := 0, size := alph.size }

/-- `BasicRotor.Forward`.  The Go source computes
`(inputIdx + r.position - r.ringSetting + r.size) % r.size` on ints; with
`ringSetting < size` the `Nat` form below has the same value. -/
def forward (r : Rotor) (inputIdx : Nat) : Nat :=
  if inputIdx ≥ r.size then inputIdx
  else
    let adjustedInput := (inputIdx + r.position + r.size - r.ringSetting) % r.size
    let output := r.forwardMap.getD adjustedInput 0
    (output + r.ringSetting + r.size - r.position) % r.size

/-- `BasicRotor.Backward`: same offsets with the inverse table. -/
def backward (r : Rotor) (inputIdx : Nat) : Nat :=
  if inputIdx ≥ r.size then inputIdx
  else
    let adjustedInput := (inputIdx + r.position + r.size - r.ringSetting) % r.size
    let output := r.backwardMap.getD adjustedInput 0
    (output + r.ringSetting + r.size - r.position) % r.size

/-- `BasicRotor.IsAtNotch`. -/
def isAtNotch (r : Rotor) : Bool :=
  r.notches.contains r.position

/-- `BasicRotor.Step`. -/
def step (r : Rotor) : Rotor :=
  { r with position := (r.position + 1) % r.size }

/-- `BasicRotor.SetPosition`:  Go normalizes with `((pos % size) + size) % size`
to handle negative ints; for the `Nat` positions of the modelled flows this
is `pos % size`. -/
def setPosition (r : Rotor) (pos : Nat) : Rotor :=
  { r with position := pos % r.size }

/-- `BasicRotor.SetRingSetting`. -/
def setRingSetting (r : Rotor) (ring : Nat) : Rotor :=
  { r with ringSetting := ring % r.size }

end Rotor

/-- `rotor.RotorSpec` (serialization record). -/
structure RotorSpec where
  id : String
  forwardMapping : List Char
  notches : List Char
  position : Nat
  ringSetting : Nat
deriving Repr, DecidableEq

namespace Rotor

/-- `rotor.CreateFromSpec`. -/
def createFromSpec (spec : RotorSpec) (alph : Alphabet) : Option Rotor := do
  let r ← newRotor spec.id alph spec.forwardMapping spec.notches
  some ((r.setPosition spec.position).setRingSetting spec.ringSetting)

/-- `rotor.ToSpec`: reconstructs the forward-mapping string and the notch
runes from the index tables. -/
def toSpec (r : Rotor) (alph : Alphabet) : Option RotorSpec := do
  let forwardMapping ← mapOpt alph.indexToRune r.forwardMap
  let notches ← mapOpt alph.indexToRune r.notches
  some { id := r.id, forwardMapping := forwardMapping, notches := notches,
         position := r.position, ringSetting := r.ringSetting }

end Rotor

/-! ## Offset arithmetic lemmas -/

theorem natCast_shift_emod (x p r n : Nat) (hr : r ≤ n) :
    (((x + p + n - r) % n : Nat) : Int)
      = ((x : Int) + ((p : Int) - (r : Int))) % (n : Int) := by
  have hle : r ≤ x + p + n := by omega
  have h1 : ((x + p + n - r : Nat) : Int) = (x : Int) + p + n - r := by
    rw [Nat.cast_sub hle]; push_cast; ring
  rw [Int.natCast_mod, h1]
  have h2 : (x : Int) + p + n - r = ((x : Int) + ((p : Int) - r)) + n * 1 := by ring
  rw [h2, Int.add_mul_emod_self_left]

theorem shift_cancel {n : Nat} (p r x : Nat) (hp : p < n) (hr : r < n) (hx : x < n) :
    ((x + p + n - r) % n + r + n - p) % n = x := by
  have h2 : ((((x + p + n - r) % n + r + n - p) % n : Nat) : Int)
      = ((((x + p + n - r) % n : Nat) : Int) + ((r : Int) - (p : Int))) % (n : Int) :=
    natCast_shift_emod _ r p n hp.le
  rw [natCast_shift_emod x p r n hr.le] at h2
  have h3 : ((((x : Int) + ((p : Int) - r)) % n + ((r : Int) - p)) % n : Int)
      = (((x : Int) + ((p : Int) - r)) + ((r : Int) - p)) % n := Int.emod_add_emod ..
  rw [h3] at h2
  have h4 : (((x : Int) + ((p : Int) - r)) + ((r : Int) - p)) = (x : Int) := by ring
  rw [h4, Int.emod_eq_of_lt (by positivity) (by exact_mod_cast hx)] at h2
  exact_mod_cast h2

/-! ## Lookup and conversion lemmas -/

namespace Alphabet

theorem lookupIdx_lt_length :
    ∀ {l : List Char} {c : Char} {i : Nat}, lookupIdx c l = some i → i < l.length := by
  intro l
  induction l with
  | nil => intro c i h; simp [lookupIdx] at h
  | cons r rest ih =>
    intro c i h
    simp only [lookupIdx] at h
    by_cases hrc : r = c
    · rw [if_pos hrc] at h
      cases h; simp
    · rw [if_neg hrc] at h
      obtain ⟨j, hj, rfl⟩ := Option.map_eq_some'.mp h
      have := ih hj
      simp only [List.length_cons]
      omega

theorem lookupIdx_getElem :
    ∀ {l : List Char} {c : Char} {i : Nat}, lookupIdx c l = some i → l[i]? = some c := by
  intro l
  induction l with
  | nil => intro c i h; simp [lookupIdx] at h
  | cons r rest ih =>
    intro c i h
    simp only [lookupIdx] at h
    by_cases hrc : r = c
    · rw [if_pos hrc] at h
      cases h
      simpa using hrc
    · rw [if_neg hrc] at h
      obtain ⟨j, hj, rfl⟩ := Option.map_eq_some'.mp h
      simpa using ih hj

theorem lookupIdx_of_getElem :
    ∀ {l : List Char}, l.Nodup → ∀ {i : Nat} {c : Char},
      l[i]? = some c → lookupIdx c l = some i := by
  intro l
  induction l with
  | nil => intro _ i c h; simp at h
  | cons r rest ih =>
    intro hnd i c h
    obtain ⟨hr, hrest⟩ := List.nodup_cons.mp hnd
    match i with
    | 0 =>
      simp only [List.getElem?_cons_zero, Option.some_inj] at h
      simp [lookupIdx, h]
    | Nat.succ j =>
      simp only [List.getElem?_cons_succ] at h
      have hmem : c ∈ rest := by
        have hj : j < rest.length := by
          by_contra hc
          rw [List.getElem?_eq_none (by omega)] at h
          exact Option.noConfusion h
        rw [List.getElem?_eq_getElem hj] at h
        exact Option.some_inj.mp h ▸ List.getElem_mem hj
      have hrc : r ≠ c := fun he => hr (he ▸ hmem)
      simp [lookupIdx, hrc, ih hrest h]

theorem runeToIndex_lt {a : Alphabet} {c : Char} {i : Nat}
    (h : a.runeToIndex c = some i) : i < a.size :=
  lookupIdx_lt_length h

theorem indexToRune_of_runeToIndex {a : Alphabet} {c : Char} {i : Nat}
    (h : a.runeToIndex c = some i) : a.indexToRune i = some c :=
  lookupIdx_getElem h

theorem runeToIndex_of_indexToRune {a : Alphabet} (hnd : a.runes.Nodup) {i : Nat} {c : Char}
    (h : a.indexToRune i = some c) : a.runeToIndex c = some i :=
  lookupIdx_of_getElem hnd h

end Alphabet

theorem mapOpt_mem_right {α β : Type} {f : α → Option β} :
    ∀ {s : List α} {l : List β}, mapOpt f s = some l →
      ∀ b ∈ l, ∃ a ∈ s, f a = some b := by
  intro s
  induction s with
  | nil =>
    intro l h b hb
    simp [mapOpt] at h
    subst h
    simp at hb
  | cons a s ih =>
    intro l h b hb
    simp only [mapOpt, Option.bind_eq_bind, Option.bind_eq_some, Option.pure_def,
      Option.some_inj] at h
    obtain ⟨b0, hb0, bs, hbs, rfl⟩ := h
    rcases List.mem_cons.mp hb with rfl | hbmem
    · exact ⟨a, List.mem_cons_self a s, hb0⟩
    · obtain ⟨a0, ha0, hfa0⟩ := ih hbs b hbmem
      exact ⟨a0, List.mem_cons_of_mem a ha0, hfa0⟩

theorem stringToIndices_lt {a : Alphabet} {s : List Char} {idxs : List Nat}
    (h : a.stringToIndices s = some idxs) : ∀ x ∈ idxs, x < a.size := by
  intro x hx
  obtain ⟨c, _, hc⟩ := mapOpt_mem_right h x hx
  exact Alphabet.runeToIndex_lt hc

/-! ## Invariants of the backward-table construction -/

namespace Rotor

theorem buildBackward_length :
    ∀ {outs : List Nat} {i : Nat} {back : List Nat} {used : List Bool} {back' : List Nat},
      buildBackward outs i back used = some back' → back'.length = back.length := by
  intro outs
  induction outs with
  | nil =>
    intro i back used back' h
    simp only [buildBackward, Option.some_inj] at h
    rw [← h]
  | cons o rest ih =>
    intro i back used back' h
    simp only [buildBackward] at h
    split at h
    · exact Option.noConfusion h
    · rw [ih h, List.length_set]

theorem buildBackward_frame :
    ∀ {outs : List Nat} {i : Nat} {back : List Nat} {used : List Bool} {back' : List Nat},
      buildBackward outs i back used = some back' →
      ∀ p, p ∉ outs → back'[p]? = back[p]? := by
  intro outs
  induction outs with
  | nil =>
    intro i back used back' h p _
    simp only [buildBackward, Option.some_inj] at h
    rw [← h]
  | cons o rest ih =>
    intro i back used back' h p hp
    simp only [buildBackward] at h
    split at h
    · exact Option.noConfusion h
    · have hpo : p ≠ o := fun he => hp (he ▸ List.mem_cons_self o rest)
      have hprest : p ∉ rest := fun hm => hp (List.mem_cons_of_mem o hm)
      rw [ih h p hprest, List.getElem?_set_ne (Ne.symm hpo)]

theorem buildBackward_fresh :
    ∀ {outs : List Nat} {i : Nat} {back : List Nat} {used : List Bool} {back' : List Nat},
      buildBackward outs i back used = some back' →
      ∀ o, used.getD o false = true → o ∉ outs := by
  intro outs
  induction outs with
  | nil => intro i back used back' _ o _; simp
  | cons o1 rest ih =>
    intro i back used back' h o hu
    simp only [buildBackward] at h
    split at h
    · exact absurd h (by simp)
    · rename_i hcond
      intro hmem
      rcases List.mem_cons.mp hmem with rfl | hrest
      · exact hcond (by simpa using hu)
      · have ho1 : o ≠ o1 := by
          intro he
          exact hcond (by simpa [he] using hu)
        have hu2 : (used.set o1 true).getD o false = true := by
          rw [List.getD_eq_getElem?_getD, List.getElem?_set_ne (Ne.symm ho1),
            ← List.getD_eq_getElem?_getD]
          exact hu
        exact ih h o hu2 hrest

theorem buildBackward_nodup :
    ∀ {outs : List Nat} {i : Nat} {back : List Nat} {used : List Bool} {back' : List Nat},
      buildBackward outs i back used = some back' →
      (∀ o ∈ outs, o < used.length) → outs.Nodup := by
  intro outs
  induction outs with
  | nil => intro _ _ _ _ _ _; simp
  | cons o rest ih =>
    intro i back used back' h hlen
    simp only [buildBackward] at h
    split at h
    · exact absurd h (by simp)
    · have holen : o < used.length := hlen o (List.mem_cons_self o rest)
      have hrestnd : rest.Nodup := by
        refine ih h ?_
        intro x hx
        rw [List.length_set]
        exact hlen x (List.mem_cons_of_mem o hx)
      have hnotmem : o ∉ rest := by
        refine buildBackward_fresh h o ?_
        rw [List.getD_eq_getElem?_getD, List.getElem?_set_eq_of_lt true holen]
        rfl
      exact List.nodup_cons.mpr ⟨hnotmem, hrestnd⟩

theorem buildBackward_entry :
    ∀ {outs : List Nat} {i : Nat} {back : List Nat} {used : List Bool} {back' : List Nat},
      buildBackward outs i back used = some back' →
      (∀ o ∈ outs, o < back.length) → (∀ o ∈ outs, o < used.length) →
      ∀ k, k < outs.length → back'[outs.getD k 0]? = some (i + k) := by
  intro outs
  induction outs with
  | nil => intro i back used back' _ _ _ k hk; simp at hk
  | cons o rest ih =>
    intro i back used back' h hblen hulen k hk
    simp only [buildBackward] at h
    split at h
    · exact absurd h (by simp)
    · have holen : o < used.length := hulen o (List.mem_cons_self o rest)
      have hoblen : o < back.length := hblen o (List.mem_cons_self o rest)
      match k with
      | 0 =>
        have hnotmem : o ∉ rest := by
          refine buildBackward_fresh h o ?_
          rw [List.getD_eq_getElem?_getD, List.getElem?_set_eq_of_lt true holen]
          rfl
        have hframe := buildBackward_frame h o hnotmem
        rw [show (o :: rest).getD 0 0 = o from rfl, hframe,
          List.getElem?_set_eq_of_lt i hoblen]
        simp
      | Nat.succ k1 =>
        have hk1 : k1 < rest.length := by simpa using hk
        have hrec := ih h ?_ ?_ k1 hk1
        · rw [show (o :: rest).getD (k1 + 1) 0 = rest.getD k1 0 from rfl, hrec]
          congr 1
          omega
        · intro x hx
          rw [List.length_set]
          exact hblen x (List.mem_cons_of_mem o hx)
        · intro x hx
          rw [List.length_set]
          exact hulen x (List.mem_cons_of_mem o hx)

/-- The wiring-table invariant established by `NewRotor`: both tables have
the alphabet's length and are mutually inverse permutations of `[0, size)`. -/
@[reducible]
def TablesOK (r : Rotor) : Prop :=
  r.forwardMap.length = r.size ∧ r.backwardMap.length = r.size ∧
  ∀ j, j < r.size →
    r.forwardMap.getD j 0 < r.size ∧ r.backwardMap.getD j 0 < r.size ∧
    r.backwardMap.getD (r.forwardMap.getD j 0) 0 = j ∧
    r.forwardMap.getD (r.backwardMap.getD j 0) 0 = j

end Rotor

theorem list_perm_surjective {l : List Nat} {n : Nat} (hlen : l.length = n)
    (hlt : ∀ x ∈ l, x < n) (hnd : l.Nodup) {o : Nat} (ho : o < n) :
    ∃ k, k < n ∧ l.getD k 0 = o := by
  have hkl : ∀ k : Fin n, (k : Nat) < l.length := fun k => by omega
  have hf : ∀ k : Fin n, l.get ⟨(k : Nat), hkl k⟩ < n :=
    fun k => hlt _ (List.get_mem l _ (hkl k))
  let f : Fin n → Fin n := fun k => ⟨l.get ⟨(k : Nat), hkl k⟩, hf k⟩
  have hinj : Function.Injective f := by
    intro k1 k2 he
    have hval : l.get ⟨(k1 : Nat), hkl k1⟩ = l.get ⟨(k2 : Nat), hkl k2⟩ :=
      congrArg Fin.val he
    exact Fin.ext ((List.Nodup.getElem_inj_iff hnd).mp hval)
  obtain ⟨k, hk⟩ := Finite.injective_iff_surjective.mp hinj ⟨o, ho⟩
  refine ⟨k.val, k.isLt, ?_⟩
  have hval := congrArg Fin.val hk
  rw [List.getD_eq_getElem l 0 (by omega)]
  exact hval

namespace Rotor

theorem forward_eq (r : Rotor) {i : Nat} (hi : i < r.size) :
    r.forward i = (r.forwardMap.getD ((i + r.position + r.size - r.ringSetting) % r.size) 0
      + r.ringSetting + r.size - r.position) % r.size := by
  unfold forward
  rw [if_neg (by omega)]

theorem backward_eq (r : Rotor) {i : Nat} (hi : i < r.size) :
    r.backward i = (r.backwardMap.getD ((i + r.position + r.size - r.ringSetting) % r.size) 0
      + r.ringSetting + r.size - r.position) % r.size := by
  unfold backward
  rw [if_neg (by omega)]

theorem backward_forward (r : Rotor) (hok : r.TablesOK) (hp : r.position < r.size)
    (hr : r.ringSetting < r.size) {i : Nat} (hi : i < r.size) :
    r.backward (r.forward i) = i ∧ r.forward i < r.size := by
  have hn : 0 < r.size := by omega
  have halt : (i + r.position + r.size - r.ringSetting) % r.size < r.size := Nat.mod_lt _ hn
  have houtlt : r.forwardMap.getD ((i + r.position + r.size - r.ringSetting) % r.size) 0
      < r.size := (hok.2.2 _ halt).1
  have hfwdlt : r.forward i < r.size := by
    rw [forward_eq r hi]
    exact Nat.mod_lt _ hn
  refine ⟨?_, hfwdlt⟩
  rw [backward_eq r hfwdlt, forward_eq r hi]
  rw [shift_cancel r.ringSetting r.position _ hr hp houtlt]
  rw [(hok.2.2 _ halt).2.2.1]
  exact shift_cancel r.position r.ringSetting i hp hr hi

theorem forward_backward (r : Rotor) (hok : r.TablesOK) (hp : r.position < r.size)
    (hr : r.ringSetting < r.size) {i : Nat} (hi : i < r.size) :
    r.forward (r.backward i) = i ∧ r.backward i < r.size := by
  have hn : 0 < r.size := by omega
  have halt : (i + r.position + r.size - r.ringSetting) % r.size < r.size := Nat.mod_lt _ hn
  have houtlt : r.backwardMap.getD ((i + r.position + r.size - r.ringSetting) % r.size) 0
      < r.size := (hok.2.2 _ halt).2.1
  have hbwdlt : r.backward i < r.size := by
    rw [backward_eq r hi]
    exact Nat.mod_lt _ hn
  refine ⟨?_, hbwdlt⟩
  rw [forward_eq r hbwdlt, backward_eq r hi]
  rw [shift_cancel r.ringSetting r.position _ hr hp houtlt]
  rw [(hok.2.2 _ halt).2.2.2]
  exact shift_cancel r.position r.ringSetting i hp hr hi

theorem newRotor_tablesOK {idv : String} {alph : Alphabet} {mapping notches : List Char}
    {r : Rotor} (h : newRotor idv alph mapping notches = some r) :
    r.TablesOK ∧ r.size = alph.size ∧ r.position = 0 ∧ r.ringSetting = 0 := by
  unfold newRotor at h
  split at h
  · exact Option.noConfusion h
  · rename_i hlen
    simp only [Option.bind_eq_bind, Option.bind_eq_some, Option.pure_def,
      Option.some_inj] at h
    obtain ⟨fwd, hfwd, back, hback, nidx, hnidx, hr⟩ := h
    subst hr
    have hfl : fwd.length = alph.size := by
      rw [mapOpt_length hfwd]
      omega
    have helts : ∀ x ∈ fwd, x < alph.size := stringToIndices_lt hfwd
    have hbl : back.length = alph.size := by
      rw [buildBackward_length hback, List.length_replicate]
    have hrep0 : ∀ o ∈ fwd, o < (List.replicate alph.size (0 : Nat)).length := by
      intro o ho; rw [List.length_replicate]; exact helts o ho
    have hrepb : ∀ o ∈ fwd, o < (List.replicate alph.size false).length := by
      intro o ho; rw [List.length_replicate]; exact helts o ho
    have hnodup : fwd.Nodup := buildBackward_nodup hback hrepb
    have hentry : ∀ k, k < fwd.length → back.getD (fwd.getD k 0) 0 = k := by
      intro k hk
      have := buildBackward_entry hback hrep0 hrepb k hk
      rw [List.getD_eq_getElem?_getD, this]
      simp
    have hsurj : ∀ o, o < alph.size → ∃ k, k < alph.size ∧ fwd.getD k 0 = o :=
      fun o ho => list_perm_surjective hfl helts hnodup ho
    refine ⟨⟨hfl, hbl, ?_⟩, rfl, rfl, rfl⟩
    dsimp only
    intro j hj
    have hjf : j < fwd.length := by omega
    have hfj : fwd.getD j 0 < alph.size := by
      rw [List.getD_eq_getElem fwd 0 hjf]
      exact helts _ (List.getElem_mem hjf)
    obtain ⟨k, hk, hko⟩ := hsurj j hj
    have hbk : back.getD j 0 = k := by
      rw [← hko]
      exact hentry k (by omega)
    refine ⟨hfj, ?_, hentry j hjf, ?_⟩
    · rw [hbk]; exact hk
    · rw [hbk, hko]

end Rotor

/-! ## Random generation (modelled with an explicit supply of random draws) -/

/-- One draw from the random source (`rand.Int`); an empty supply models a
failure of `crypto/rand`, which the Go code propagates as an error. -/
def nextRand : List Nat → Option (Nat × List Nat)
  | [] => none
  | j :: rest => some (j, rest)

/-- The in-place swap `l[a], l[b] = l[b], l[a]`. -/
def listSwap {α : Type} [Inhabited α] (l : List α) (a b : Nat) : List α :=
  (l.set a (l.getD b default)).set b (l.getD a default)

/-- The Fisher–Yates loop `for i := size-1; i > 0; i--` of `RandomRotor` and
`RandomReflector`; each draw `j` models `rand.Int(rand.Reader, i+1)`, a value
in `[0, i+1)`, so it is reduced `% (i+1)` here. -/
def fisherYates {α : Type} [Inhabited α] : List α → Nat → List Nat → Option (List α × List Nat)
  | l, 0, supply => some (l, supply)
  | l, Nat.succ i1, supply => do
    let (j, rest) ← nextRand supply
    fisherYates (listSwap l (i1 + 1) (j % (i1 + 2))) i1 rest

/-- The notch-position retry loop of `RandomRotor`: draw positions until one
not yet taken comes up. -/
def pickFresh (size : Nat) (taken : List Nat) : List Nat → Option (Nat × List Nat)
  | [] => none
  | j :: rest =>
    if taken.contains (j % size) then pickFresh size taken rest
    else some (j % size, rest)

/-- The notch-selection loop of `RandomRotor`: `numNotches` fresh positions,
each contributing the shuffled rune at that position. -/
def pickNotches (runes : List Char) (size : Nat) :
    Nat → List Nat → List Nat → Option (List Char × List Nat)
  | 0, _, supply => some ([], supply)
  | Nat.succ k, taken, supply => do
    let (pos, s1) ← pickFresh size taken supply
    let (more, s2) ← pickNotches runes size k (pos :: taken) s1
    some (runes.getD pos ' ' :: more, s2)

/-- `rotor.RandomRotor`: Fisher–Yates shuffle of the alphabet runes, a draw
of 1–3 notch positions, then `NewRotor` on the shuffled mapping. -/
def randomRotor (supply : List Nat) (idv : String) (alph : Alphabet) : Option Rotor := do
  let (runes1, s1) ← fisherYates alph.runes (alph.size - 1) supply
  let (d, s2) ← nextRand s1
  let numNotches := d % 3 + 1
  let (notches, _) ← pickNotches runes1 alph.size numNotches [] s2
  Rotor.newRotor idv alph runes1 notches

/-! ## Claim C8: forward and backward are mutual inverses -/

/-- Claim C8: for every rotor successfully constructed by `NewRotor` or
generated by `RandomRotor` over an alphabet of size `n`, for every position
in `[0, n)` (reached via `SetPosition`), every ring setting in `[0, n)`
(via `SetRingSetting`), and every index `i` in `[0, n)`:
`Backward(Forward(i)) = i` and `Forward(Backward(i)) = i`. -/
theorem c8_rotor_mutual_inverse :
    (∀ (idv : String) (alph : Alphabet) (mapping notches : List Char) (r : Rotor)
      (p s i : Nat), Rotor.newRotor idv alph mapping notches = some r → i < alph.size →
        ((r.setPosition p).setRingSetting s).backward
            (((r.setPosition p).setRingSetting s).forward i) = i
        ∧ ((r.setPosition p).setRingSetting s).forward
            (((r.setPosition p).setRingSetting s).backward i) = i)
    ∧ (∀ (supply : List Nat) (idv : String) (alph : Alphabet) (r : Rotor) (p s i : Nat),
        randomRotor supply idv alph = some r → i < alph.size →
        ((r.setPosition p).setRingSetting s).backward
            (((r.setPosition p).setRingSetting s).forward i) = i
        ∧ ((r.setPosition p).setRingSetting s).forward
            (((r.setPosition p).setRingSetting s).backward i) = i) := by
  have hmain : ∀ (idv : String) (alph : Alphabet) (mapping notches : List Char) (r : Rotor)
      (p s i : Nat), Rotor.newRotor idv alph mapping notches = some r → i < alph.size →
        ((r.setPosition p).setRingSetting s).backward
            (((r.setPosition p).setRingSetting s).forward i) = i
        ∧ ((r.setPosition p).setRingSetting s).forward
            (((r.setPosition p).setRingSetting s).backward i) = i := by
    intro idv alph mapping notches r p s i h hi
    obtain ⟨hok, hsize, _, _⟩ := Rotor.newRotor_tablesOK h
    set rr := (r.setPosition p).setRingSetting s with hrr
    have hsz : rr.size = r.size := rfl
    have hn : 0 < rr.size := by rw [hsz, hsize]; omega
    have hok2 : rr.TablesOK := hok
    have hp : rr.position < rr.size := by
      show p % r.size < r.size
      exact Nat.mod_lt _ (by omega)
    have hq : rr.ringSetting < rr.size := by
      show s % r.size < r.size
      exact Nat.mod_lt _ (by omega)
    have hi2 : i < rr.size := by rw [hsz, hsize]; exact hi
    exact ⟨(Rotor.backward_forward rr hok2 hp hq hi2).1,
      (Rotor.forward_backward rr hok2 hp hq hi2).1⟩
  refine ⟨hmain, ?_⟩
  intro supply idv alph r p s i h hi
  unfold randomRotor at h
  simp only [Option.bind_eq_bind, Option.bind_eq_some] at h
  obtain ⟨⟨runes1, s1⟩, _, h⟩ := h
  obtain ⟨⟨d, s2⟩, _, h⟩ := h
  obtain ⟨⟨notches, s3⟩, _, h⟩ := h
  exact hmain idv alph runes1 notches r p s i h hi

/-- Witness for `c8_rotor_mutual_inverse`: a concrete rotor over `ABCD`. -/
theorem c8_rotor_mutual_inverse_witness :
    ∃ r : Rotor,
      Rotor.newRotor "T" ⟨['A', 'B', 'C', 'D']⟩ ['B', 'C', 'A', 'D'] ['A'] = some r
      ∧ ((r.setPosition 1).setRingSetting 2).backward
          (((r.setPosition 1).setRingSetting 2).forward 3) = 3 := by
  have hsome : (Rotor.newRotor "T" ⟨['A', 'B', 'C', 'D']⟩ ['B', 'C', 'A', 'D'] ['A']).isSome
      = true := by decide
  obtain ⟨r, hr⟩ := Option.isSome_iff_exists.mp hsome
  exact ⟨r, hr, (c8_rotor_mutual_inverse.1 "T" ⟨['A', 'B', 'C', 'D']⟩ ['B', 'C', 'A', 'D']
    ['A'] r 1 2 3 hr (by decide)).1⟩

/-! ## Claim C5: the rotor offset formula

The spec asserts `forward(i) = (table[(i - (p - r)) mod n] + (p - r)) mod n`.
The source (`BasicRotor.Forward`) computes the opposite signs: it adds
`(position - ringSetting)` to the input before the table lookup and
subtracts it from the table's output. -/

/-- Modelled from the spec words of claim C5 (§4.2): the claimed formula
`forward(i) = (table[(i - (p - r)) mod n] + (p - r)) mod n`, read with
mathematical (non-negative) `mod n`. -/
def specForwardFormula (table : List Nat) (p r n i : Nat) : Int :=
  (((table.getD (((i : Int) - ((p : Int) - (r : Int))) % (n : Int)).toNat 0 : Nat) : Int)
    + ((p : Int) - (r : Int))) % (n : Int)

/-- The formula the source actually computes, with signed offsets. -/
theorem rotor_forward_eq_signed_formula (r : Rotor) (hp : r.position < r.size)
    (hr : r.ringSetting < r.size) (i : Nat) (hi : i < r.size) :
    ((r.forward i : Nat) : Int)
      = (((r.forwardMap.getD
            ((((i : Int) + ((r.position : Int) - (r.ringSetting : Int))) % (r.size : Int)).toNat) 0 : Nat) : Int)
          - ((r.position : Int) - (r.ringSetting : Int))) % (r.size : Int) := by
  unfold Rotor.forward
  rw [if_neg (by omega)]
  have hidx : ((i + r.position + r.size - r.ringSetting) % r.size : Nat)
      = (((i : Int) + ((r.position : Int) - (r.ringSetting : Int))) % (r.size : Int)).toNat := by
    have h := natCast_shift_emod i r.position r.ringSetting r.size hr.le
    have h2 := congrArg Int.toNat h
    simpa using h2
  rw [hidx]
  set out := r.forwardMap.getD
      ((((i : Int) + ((r.position : Int) - (r.ringSetting : Int))) % (r.size : Int)).toNat) 0
  have h := natCast_shift_emod out r.ringSetting r.position r.size hp.le
  rw [h]
  congr 1
  ring

/-- Same fact for `Backward` over the inverse table. -/
theorem rotor_backward_eq_signed_formula (r : Rotor) (hp : r.position < r.size)
    (hr : r.ringSetting < r.size) (i : Nat) (hi : i < r.size) :
    ((r.backward i : Nat) : Int)
      = (((r.backwardMap.getD
            ((((i : Int) + ((r.position : Int) - (r.ringSetting : Int))) % (r.size : Int)).toNat) 0 : Nat) : Int)
          - ((r.position : Int) - (r.ringSetting : Int))) % (r.size : Int) := by
  unfold Rotor.backward
  rw [if_neg (by omega)]
  have hidx : ((i + r.position + r.size - r.ringSetting) % r.size : Nat)
      = (((i : Int) + ((r.position : Int) - (r.ringSetting : Int))) % (r.size : Int)).toNat := by
    have h := natCast_shift_emod i r.position r.ringSetting r.size hr.le
    have h2 := congrArg Int.toNat h
    simpa using h2
  rw [hidx]
  set out := r.backwardMap.getD
      ((((i : Int) + ((r.position : Int) - (r.ringSetting : Int))) % (r.size : Int)).toNat) 0
  have h := natCast_shift_emod out r.ringSetting r.position r.size hp.le
  rw [h]
  congr 1
  ring

/-- Counterexample to claim C5 as stated: over the alphabet `ABCD`, the rotor
with wiring `A→A, B→C, C→B, D→D` (table `[0, 2, 1, 3]`) at position 1, ring
setting 0, maps input 0 to 1, while the spec formula
`(table[(i - (p - r)) mod n] + (p - r)) mod n` yields 0. -/
theorem c5_counterexample :
    ((Alphabet.new ['A', 'B', 'C', 'D']).bind
        (fun a => Rotor.newRotor "T" a ['A', 'C', 'B', 'D'] [])).map
        (fun r => ((r.setPosition 1).forwardMap, (r.setPosition 1).forward 0))
      = some ([0, 2, 1, 3], 1)
    ∧ specForwardFormula [0, 2, 1, 3] 1 0 4 0 = 0 ∧ (1 : Int) ≠ 0 := by
  refine ⟨by decide, by decide, by decide⟩

/-- Claim C5, amended: for every rotor with position `p < n` and ring setting
`r < n`, and every input index `i` in `[0, n)`, `forward` applies the wiring
permutation after ADDING `(p - r)` to the input, modulo `n`, and SUBTRACTS
`(p - r)` from the table's output, modulo `n` — i.e.
`forward(i) = (table[(i + (p - r)) mod n] - (p - r)) mod n` — and `backward`
is the same computation with the inverse table. -/
theorem c5_rotor_offset_formula (r : Rotor) (hp : r.position < r.size)
    (hr : r.ringSetting < r.size) (i : Nat) (hi : i < r.size) :
    ((r.forward i : Nat) : Int)
      = (((r.forwardMap.getD
            ((((i : Int) + ((r.position : Int) - (r.ringSetting : Int))) % (r.size : Int)).toNat) 0 : Nat) : Int)
          - ((r.position : Int) - (r.ringSetting : Int))) % (r.size : Int)
    ∧ ((r.backward i : Nat) : Int)
      = (((r.backwardMap.getD
            ((((i : Int) + ((r.position : Int) - (r.ringSetting : Int))) % (r.size : Int)).toNat) 0 : Nat) : Int)
          - ((r.position : Int) - (r.ringSetting : Int))) % (r.size : Int) :=
  ⟨rotor_forward_eq_signed_formula r hp hr i hi,
   rotor_backward_eq_signed_formula r hp hr i hi⟩

/-! ## Reflector (internal/reflector/reflector.go) -/

/-- `BasicReflector`. -/
structure Reflector where
  id : String
  mapping : List Nat
  size : Nat
deriving Repr, DecidableEq, Inhabited

namespace Reflector

/-- The per-entry validation loop of `NewReflector`: for the `i`-th output
index `o`, reject a self-mapping (`i == o`) and a duplicated target
(`used[o]`). -/
def checkSelfDup : List Nat → Nat → List Bool → Option Unit
  | [], _, _ => some ()
  | o :: rest, i, used =>
    if i = o then none
    else if used.getD o false then none
    else checkSelfDup rest (i + 1) (used.set o true)

/-- `reflector.NewReflector`: length check, rune conversion, self-mapping and
duplicate-target checks, then the final reciprocity loop
(`reflectMap[reflectMap[i]] == i` for every `i`). -/
def newReflector (idv : String) (alph : Alphabet) (mapping : List Char) : Option Reflector :=
  if mapping.length ≠ alph.size then none
  else do
    let reflectMap ← alph.stringToIndices mapping
    let _ ← checkSelfDup reflectMap 0 (List.replicate alph.size false)
    if (List.range alph.size).all
        (fun i => reflectMap.getD (reflectMap.getD i 0) 0 == i) then
      some { id := idv, mapping := reflectMap, size := alph.size }
    else none

/-- `BasicReflector.Reflect`. -/
def reflect (r : Reflector) (inputIdx : Nat) : Nat :=
  if inputIdx ≥ r.size then inputIdx
  else r.mapping.getD inputIdx 0

end Reflector

/-- The consecutive-pairing loop of `RandomReflector`: for each shuffled pair
`(idx1, idx2)`, set `mapping[idx1] = runes[idx2]` and
`mapping[idx2] = runes[idx1]`. -/
def pairUp : List Nat → List Char → List Char → List Char
  | a :: b :: rest, mapping, runes =>
    pairUp rest ((mapping.set a (runes.getD b ' ')).set b (runes.getD a ' ')) runes
  | _, mapping, _ => mapping

/-- `reflector.RandomReflector`: requires an even alphabet, shuffles all
indices, pairs them consecutively and delegates to `NewReflector`. -/
def randomReflector (supply : List Nat) (idv : String) (alph : Alphabet) :
    Option Reflector :=
  if alph.size % 2 ≠ 0 then none
  else do
    let (available, _) ← fisherYates (List.range alph.size) (alph.size - 1) supply
    Reflector.newReflector idv alph
      (pairUp available (List.replicate alph.size ' ') alph.runes)

namespace Reflector

theorem checkSelfDup_fresh :
    ∀ {outs : List Nat} {i : Nat} {used : List Bool},
      checkSelfDup outs i used = some () →
      ∀ o, used.getD o false = true → o ∉ outs := by
  intro outs
  induction outs with
  | nil => intro i used _ o _; simp
  | cons o1 rest ih =>
    intro i used h o hu
    simp only [checkSelfDup] at h
    split at h
    · exact Option.noConfusion h
    · split at h
      · exact Option.noConfusion h
      · rename_i hcond
        intro hmem
        rcases List.mem_cons.mp hmem with rfl | hrest
        · exact hcond (by simpa using hu)
        · have ho1 : o ≠ o1 := by
            intro he
            exact hcond (by simpa [he] using hu)
          have hu2 : (used.set o1 true).getD o false = true := by
            rw [List.getD_eq_getElem?_getD, List.getElem?_set_ne (Ne.symm ho1),
              ← List.getD_eq_getElem?_getD]
            exact hu
          exact ih h o hu2 hrest

theorem checkSelfDup_nodup :
    ∀ {outs : List Nat} {i : Nat} {used : List Bool},
      checkSelfDup outs i used = some () →
      (∀ o ∈ outs, o < used.length) → outs.Nodup := by
  intro outs
  induction outs with
  | nil => intro _ _ _ _; simp
  | cons o rest ih =>
    intro i used h hlen
    simp only [checkSelfDup] at h
    split at h
    · exact Option.noConfusion h
    · split at h
      · exact Option.noConfusion h
      · have holen : o < used.length := hlen o (List.mem_cons_self o rest)
        have hrestnd : rest.Nodup := by
          refine ih h ?_
          intro x hx
          rw [List.length_set]
          exact hlen x (List.mem_cons_of_mem o hx)
        have hnotmem : o ∉ rest := by
          refine checkSelfDup_fresh h o ?_
          rw [List.getD_eq_getElem?_getD, List.getElem?_set_eq_of_lt true holen]
          rfl
        exact List.nodup_cons.mpr ⟨hnotmem, hrestnd⟩

theorem checkSelfDup_noself :
    ∀ {outs : List Nat} {i : Nat} {used : List Bool},
      checkSelfDup outs i used = some () →
      ∀ k, k < outs.length → outs.getD k 0 ≠ i + k := by
  intro outs
  induction outs with
  | nil => intro i used _ k hk; simp at hk
  | cons o rest ih =>
    intro i used h k hk
    simp only [checkSelfDup] at h
    split at h
    · exact Option.noConfusion h
    · split at h
      · exact Option.noConfusion h
      · rename_i hne _
        match k with
        | 0 => simpa using fun he => hne he.symm
        | Nat.succ k1 =>
          have hk1 : k1 < rest.length := by simpa using hk
          have := ih h k1 hk1
          show rest.getD k1 0 ≠ i + (k1 + 1)
          intro he
          exact this (by omega)

/-- What a successful `NewReflector` guarantees about the built table. -/
theorem newReflector_ok {idv : String} {alph : Alphabet} {mapping : List Char}
    {r : Reflector} (h : newReflector idv alph mapping = some r) :
    r.size = alph.size ∧ r.mapping.length = alph.size ∧
    (∀ x ∈ r.mapping, x < alph.size) ∧ r.mapping.Nodup ∧
    (∀ k, k < alph.size → r.mapping.getD k 0 ≠ k) ∧
    (∀ k, k < alph.size → r.mapping.getD (r.mapping.getD k 0) 0 = k) := by
  unfold newReflector at h
  split at h
  · exact Option.noConfusion h
  · rename_i hlen
    simp only [Option.bind_eq_bind, Option.bind_eq_some] at h
    obtain ⟨outs, houts, u, hu, h⟩ := h
    have hu2 : checkSelfDup outs 0 (List.replicate alph.size false) = some () := by
      cases u; exact hu
    split at h
    · rename_i hall
      simp only [Option.some_inj] at h
      subst h
      have hol : outs.length = alph.size := by
        rw [mapOpt_length houts]
        omega
      have helts : ∀ x ∈ outs, x < alph.size := stringToIndices_lt houts
      have hrepl : ∀ o ∈ outs, o < (List.replicate alph.size false).length := by
        intro o ho; rw [List.length_replicate]; exact helts o ho
      refine ⟨rfl, hol, helts, checkSelfDup_nodup hu2 hrepl, ?_, ?_⟩
      · intro k hk
        have := checkSelfDup_noself hu2 k (by omega)
        simpa using this
      · intro k hk
        have hall2 := List.all_eq_true.mp hall k (List.mem_range.mpr hk)
        simpa using hall2
    · exact Option.noConfusion h

end Reflector

/-! ## Plugboard (internal/plugboard/plugboard.go)

The Go `Plugboard` keeps two `map[int]int` fields (`mapping` and `pairs`)
that every mutation updates in lockstep; both are modelled as association
lists updated in lockstep.  Mutating methods of the Go type act on the
receiver and return an `error`; they are modelled as functions returning the
(possibly mutated) state together with an `ok` flag, so that what happens to
the state on the error path stays observable. -/

/-- Association-list lookup, modelling `m[k]` (`ok` reading) on a Go map. -/
def lookupNat (m : List (Nat × Nat)) (k : Nat) : Option Nat :=
  (m.find? (fun p => p.1 == k)).map (fun p => p.2)

/-- Association-list store `m[k] = v` on a Go map: replaces an existing
binding, otherwise appends. -/
def insertNat : List (Nat × Nat) → Nat → Nat → List (Nat × Nat)
  | [], k, v => [(k, v)]
  | (k1, v1) :: rest, k, v =>
    if k1 = k then (k, v) :: rest else (k1, v1) :: insertNat rest k v

/-- Association-list lookup on a rune-keyed Go map (`pairs[r]`). -/
def lookupChar (m : List (Char × Char)) (k : Char) : Option Char :=
  (m.find? (fun p => p.1 == k)).map (fun p => p.2)

/-- `plugboard.Plugboard`. -/
structure Plugboard where
  alphabet : Alphabet
  mapping : List (Nat × Nat)
  pairs : List (Nat × Nat)
  size : Nat
deriving Repr, DecidableEq

namespace Plugboard

/-- `plugboard.New`: an empty plugboard over the alphabet. -/
def new (alph : Alphabet) : Plugboard :=
  { alphabet := alph, mapping := [], pairs := [], size := alph.size }

/-- `Plugboard.Process`. -/
def process (p : Plugboard) (inputIdx : Nat) : Nat :=
  if inputIdx ≥ p.size then inputIdx
  else (lookupNat p.mapping inputIdx).getD inputIdx

/-- `Plugboard.AddPair`: all validation precedes any mutation, so the error
path returns the receiver unchanged. -/
def addPair (p : Plugboard) (r1 r2 : Char) : Plugboard × Bool :=
  match p.alphabet.runeToIndex r1 with
  | none => (p, false)
  | some idx1 =>
    match p.alphabet.runeToIndex r2 with
    | none => (p, false)
    | some idx2 =>
      if idx1 = idx2 then (p, false)
      else if (lookupNat p.pairs idx1).isSome then (p, false)
      else if (lookupNat p.pairs idx2).isSome then (p, false)
      else
        ({ p with
            mapping := insertNat (insertNat p.mapping idx1 idx2) idx2 idx1,
            pairs := insertNat (insertNat p.pairs idx1 idx2) idx2 idx1 }, true)

/-- `Plugboard.Clear`. -/
def clear (p : Plugboard) : Plugboard :=
  { p with mapping := [], pairs := [] }

/-- `Plugboard.PairCount`. -/
def pairCount (p : Plugboard) : Nat :=
  p.pairs.length / 2

/-- The loop of `SetPairsFromMap` over the entries of the requested map
(`entries` is the iteration order, `allPairs` the map itself): skip an
already-processed key, reject a non-reciprocal entry, otherwise `AddPair`. -/
def setPairsLoop (p : Plugboard) (allPairs : List (Char × Char)) :
    List (Char × Char) → List Char → Plugboard × Bool
  | [], _ => (p, true)
  | (r1, r2) :: rest, processed =>
    if processed.contains r1 then setPairsLoop p allPairs rest processed
    else if lookupChar allPairs r2 ≠ some r1 then (p, false)
    else
      match addPair p r1 r2 with
      | (p1, true) => setPairsLoop p1 allPairs rest (r1 :: r2 :: processed)
      | (p1, false) => (p1, false)

/-- `Plugboard.SetPairsFromMap`: NOTE the Go code calls `p.Clear()` first and
only then validates, so a failing call leaves the plugboard cleared (and
possibly partially repopulated). -/
def setPairsFromMap (p : Plugboard) (pairs : List (Char × Char)) : Plugboard × Bool :=
  setPairsLoop p.clear pairs pairs []

/-- The pairing loop of `RandomPairs`: consume the shuffled indices two at a
time, `n` times. -/
def randomPairLoop (p : Plugboard) : List Nat → Nat → Plugboard
  | _, 0 => p
  | a :: b :: rest, Nat.succ k =>
    randomPairLoop
      { p with
          mapping := insertNat (insertNat p.mapping a b) b a,
          pairs := insertNat (insertNat p.pairs a b) b a } rest k
  | _, Nat.succ _ => p

/-- `Plugboard.RandomPairs`: validates `n` (this precedes the `Clear`), then
clears, shuffles all indices and pairs the first `2n` of them.  `n` is an
`Int` because the Go parameter is a signed `int` checked for negativity. -/
def randomPairs (supply : List Nat) (p : Plugboard) (n : Int) : Plugboard × Bool :=
  if n < 0 then (p, false)
  else if n > (p.size / 2 : Nat) then (p, false)
  else
    let p1 := p.clear
    if n = 0 then (p1, true)
    else
      match fisherYates (List.range p.size) (p.size - 1) supply with
      | none => (p1, false)
      | some (available, _) => (randomPairLoop p1 available n.toNat, true)

/-- `Plugboard.GetPairsMap`: converts the index pairs back to rune pairs. -/
def getPairsMap (p : Plugboard) : Option (List (Char × Char)) :=
  mapOpt (fun kv => do
    let r1 ← p.alphabet.indexToRune kv.1
    let r2 ← p.alphabet.indexToRune kv.2
    pure (r1, r2)) p.mapping

end Plugboard

/-! ## Settings record (pkg/enigma/settings.go) -/

/-- `reflector.ReflectorSpec`. -/
structure ReflectorSpec where
  id : String
  mapping : List Char
deriving Repr, DecidableEq

/-- `reflector.ToSpec`. -/
def Reflector.toSpec (r : Reflector) (alph : Alphabet) : Option ReflectorSpec := do
  let mapping ← mapOpt alph.indexToRune r.mapping
  some { id := r.id, mapping := mapping }

/-- `enigma.EnigmaSettings` (the `Metadata` field carries only free-form
documentation and is omitted).  `schemaVersion` is an `Int`, matching the
signed Go field. -/
structure EnigmaSettings where
  schemaVersion : Int
  alphabet : List Char
  rotorSpecs : List RotorSpec
  reflectorSpec : ReflectorSpec
  plugboardPairs : List (Char × Char)
  currentRotorPositions : List Nat
deriving Repr, DecidableEq

/-! ## Engine (pkg/enigma/enigma.go) -/

/-- `enigma.Enigma`. -/
structure Enigma where
  alphabet : Alphabet
  rotors : List Rotor
  reflector : Reflector
  plugboard : Plugboard
  initialSettings : EnigmaSettings
deriving Repr, DecidableEq

namespace Enigma

/-- `Enigma.GetCurrentRotorPositions`. -/
def getCurrentRotorPositions (e : Enigma) : List Nat :=
  e.rotors.map Rotor.position

/-- The scan `for i := len(rotors)-2; i >= 0; i--` of `stepRotors`: rotor `i`
steps when its right neighbour is (now) at a notch, or when it is the
second-from-right rotor and `doubleStep` was recorded; the scan `break`s at
the first rotor meeting neither condition. -/
def stepScan (dbl : Bool) (n : Nat) : Nat → List Rotor → List Rotor
  | 0, rs =>
    if (rs.getD 1 default).isAtNotch then rs.set 0 ((rs.getD 0 default).step)
    else if 0 = n - 2 ∧ dbl then rs.set 0 ((rs.getD 0 default).step)
    else rs
  | Nat.succ i1, rs =>
    if (rs.getD (i1 + 2) default).isAtNotch then
      stepScan dbl n i1 (rs.set (i1 + 1) ((rs.getD (i1 + 1) default).step))
    else if i1 + 1 = n - 2 ∧ dbl then
      stepScan dbl n i1 (rs.set (i1 + 1) ((rs.getD (i1 + 1) default).step))
    else rs

/-- `Enigma.stepRotors`: record `doubleStep` from the second-from-right rotor
(when there are at least two), always step the rightmost rotor, then run the
scan. -/
def stepRotors (e : Enigma) : Enigma :=
  if e.rotors.isEmpty then e
  else
    let n := e.rotors.length
    let dbl := if 2 ≤ n then (e.rotors.getD (n - 2) default).isAtNotch else false
    let rs1 := e.rotors.set (n - 1) ((e.rotors.getD (n - 1) default).step)
    if 2 ≤ n then { e with rotors := stepScan dbl n (n - 2) rs1 }
    else { e with rotors := rs1 }

/-- `Enigma.processCharacter`: step the rotors, then push the index through
plugboard → rotors right-to-left → reflector → rotors left-to-right →
plugboard. -/
def processCharacter (e : Enigma) (inputIdx : Nat) : Enigma × Nat :=
  let e1 := e.stepRotors
  let c1 := e1.plugboard.process inputIdx
  let c2 := e1.rotors.foldr (fun r c => r.forward c) c1
  let c3 := e1.reflector.reflect c2
  let c4 := e1.rotors.foldl (fun c r => r.backward c) c3
  let c5 := e1.plugboard.process c4
  (e1, c5)

/-- The per-character loop of `processText`. -/
def processIndices (e : Enigma) : List Nat → Enigma × List Nat
  | [] => (e, [])
  | i :: rest =>
    let r1 := e.processCharacter i
    let r2 := r1.1.processIndices rest
    (r2.1, r1.2 :: r2.2)

/-- `Enigma.processText`: empty input short-circuits; the whole input is
validated before any rotor moves; then each index is processed and the
output indices are converted back.  The engine state is returned alongside
so that the error paths' (lack of) mutation stays observable. -/
def processText (e : Enigma) (text : List Char) : Enigma × Option (List Char) :=
  if text.isEmpty then (e, some [])
  else
    match e.alphabet.validateString text with
    | some _ => (e, none)
    | none =>
      match e.alphabet.stringToIndices text with
      | none => (e, none)
      | some indices =>
        let r := e.processIndices indices
        match r.1.alphabet.indicesToString r.2 with
        | none => (r.1, none)
        | some result => (r.1, some result)

/-- `Enigma.Encrypt`. -/
def encrypt (e : Enigma) (plaintext : List Char) : Enigma × Option (List Char) :=
  e.processText plaintext

/-- `Enigma.Decrypt` (identical implementation, by the reciprocity design). -/
def decrypt (e : Enigma) (ciphertext : List Char) : Enigma × Option (List Char) :=
  e.processText ciphertext

/-- The loop of `Reset`: restore each rotor's position from the stored
initial settings (rotors beyond the spec list are left alone). -/
def resetPositions : List Rotor → List RotorSpec → List Rotor
  | rs, [] => rs
  | [], _ => []
  | r :: rs, spec :: specs => r.setPosition spec.position :: resetPositions rs specs

/-- `Enigma.Reset`. -/
def reset (e : Enigma) : Enigma :=
  { e with rotors := resetPositions e.rotors e.initialSettings.rotorSpecs }

/-- `Enigma.SetRotorPositions`. -/
def setRotorPositions (e : Enigma) (positions : List Nat) : Option Enigma :=
  if positions.length ≠ e.rotors.length then none
  else some { e with rotors := List.zipWith Rotor.setPosition e.rotors positions }

/-- `Enigma.GetRotorCount`. -/
def getRotorCount (e : Enigma) : Nat := e.rotors.length

/-- `Enigma.GetAlphabetSize`. -/
def getAlphabetSize (e : Enigma) : Nat := e.alphabet.size

/-- `Enigma.GetPlugboardPairCount`. -/
def getPlugboardPairCount (e : Enigma) : Nat := e.plugboard.pairCount

end Enigma

/-! ## Settings capture / restore (pkg/enigma/settings.go) -/

namespace Enigma

/-- The body of `GetSettings` on explicit components (used both by
`GetSettings` itself and by `New`, which captures the initial settings
before the `Enigma` value is complete). -/
def getSettingsParts (alph : Alphabet) (rotors : List Rotor) (refl : Reflector)
    (pb : Plugboard) : Option EnigmaSettings := do
  let rotorSpecs ← mapOpt (fun r => Rotor.toSpec r alph) rotors
  let reflectorSpec ← refl.toSpec alph
  let plugboardPairs ← pb.getPairsMap
  some { schemaVersion := 1, alphabet := alph.runes, rotorSpecs := rotorSpecs,
         reflectorSpec := reflectorSpec, plugboardPairs := plugboardPairs,
         currentRotorPositions := rotors.map Rotor.position }

/-- `Enigma.GetSettings`. -/
def getSettings (e : Enigma) : Option EnigmaSettings :=
  getSettingsParts e.alphabet e.rotors e.reflector e.plugboard

/-- The plugboard step of `LoadSettings`: a fresh plugboard, populated via
`SetPairsFromMap` when the imported pair map is non-empty. -/
def loadPlugboard (alph : Alphabet) (pairs : List (Char × Char)) : Option Plugboard :=
  if pairs.length > 0 then
    match (Plugboard.new alph).setPairsFromMap pairs with
    | (pb1, true) => some pb1
    | (_, false) => none
  else some (Plugboard.new alph)

/-- The current-rotor-positions step of `LoadSettings`: applied only when
present, and only when its length matches the rotor count. -/
def loadPositions (rotors : List Rotor) (positions : List Nat) : Option (List Rotor) :=
  if positions.length > 0 then
    if positions.length ≠ rotors.length then none
    else some (List.zipWith Rotor.setPosition rotors positions)
  else some rotors

/-- `Enigma.LoadSettings`, modelled as the engine value it produces (the Go
method mutates its receiver field by field; on an error the receiver keeps
the partial mutations, which is the subject of claim C2).  NOTE: no check of
`settings.SchemaVersion`, and no check that `RotorSpecs` is non-empty. -/
def loadSettings (settings : EnigmaSettings) : Option Enigma := do
  let alph ← Alphabet.new settings.alphabet
  let rotors ← mapOpt (fun spec => Rotor.createFromSpec spec alph) settings.rotorSpecs
  let refl ← Reflector.newReflector settings.reflectorSpec.id alph
    settings.reflectorSpec.mapping
  let pb ← loadPlugboard alph settings.plugboardPairs
  let rotors2 ← loadPositions rotors settings.currentRotorPositions
  some { alphabet := alph, rotors := rotors2, reflector := refl, plugboard := pb,
         initialSettings :=
           { settings with
               currentRotorPositions := settings.rotorSpecs.map RotorSpec.position } }

end Enigma

/-- `enigma.NewFromSettings`. -/
def newFromSettings (settings : EnigmaSettings) : Option Enigma :=
  Enigma.loadSettings settings

/-- `enigma.New` after all options ran: the options' net effect is the
optional alphabet / reflector / plugboard and rotor list they installed;
`New` then validates that alphabet and at least one rotor and a reflector
are present, defaults the plugboard, and captures the initial settings. -/
def newEngine (alph : Option Alphabet) (rotors : List Rotor) (refl : Option Reflector)
    (pb : Option Plugboard) : Option Enigma :=
  match alph with
  | none => none
  | some a =>
    if rotors.isEmpty then none
    else
      match refl with
      | none => none
      | some rf =>
        let pb1 := pb.getD (Plugboard.new a)
        do
          let s ← Enigma.getSettingsParts a rotors rf pb1
          some { alphabet := a, rotors := rotors, reflector := rf, plugboard := pb1,
                 initialSettings := s }

/-! ## JSON serialization (MarshalJSON / UnmarshalJSON)

The Go code marshals through an auxiliary `jsonSettings` struct whose rune
fields become strings; `encoding/json` then round-trips that struct's
content faithfully, so the embedding works at the `jsonSettings` level and
models exactly the rune↔string conversions the repository itself performs. -/

/-- Byte length of a rune's UTF-8 encoding: what Go's `len` returns on the
single-rune string `string(r)`. -/
def utf8Len (c : Char) : Nat :=
  if c.toNat < 0x80 then 1
  else if c.toNat < 0x800 then 2
  else if c.toNat < 0x10000 then 3
  else 4

/-- Go `len` of a string (its UTF-8 byte count). -/
def goStrLen (s : List Char) : Nat :=
  (s.map utf8Len).sum

/-- The auxiliary `jsonSettings` struct: plugboard pairs keyed by strings. -/
structure JsonSettings where
  schemaVersion : Int
  alphabet : List Char
  rotorSpecs : List RotorSpec
  reflectorSpec : ReflectorSpec
  plugboardPairs : List (List Char × List Char)
  currentRotorPositions : List Nat
deriving Repr, DecidableEq

/-- `EnigmaSettings.MarshalJSON`: each rune pair `(k, v)` becomes the string
pair `(string(k), string(v))`. -/
def marshalSettings (s : EnigmaSettings) : JsonSettings :=
  { schemaVersion := s.schemaVersion, alphabet := s.alphabet,
    rotorSpecs := s.rotorSpecs, reflectorSpec := s.reflectorSpec,
    plugboardPairs := s.plugboardPairs.map (fun kv => ([kv.1], [kv.2])),
    currentRotorPositions := s.currentRotorPositions }

/-- `EnigmaSettings.UnmarshalJSON` after `json.Unmarshal` fills the
`jsonSettings` struct: rejects `schema_version != 1`, then converts each
string pair back, rejecting any key or value whose Go `len` (BYTE length,
not rune count) differs from 1. -/
def unmarshalSettings (js : JsonSettings) : Option EnigmaSettings :=
  if js.schemaVersion ≠ 1 then none
  else do
    let pairs ← mapOpt (fun kv =>
      if goStrLen kv.1 ≠ 1 ∨ goStrLen kv.2 ≠ 1 then none
      else do
        let k ← kv.1.head?
        let v ← kv.2.head?
        pure (k, v)) js.plugboardPairs
    some { schemaVersion := js.schemaVersion, alphabet := js.alphabet,
           rotorSpecs := js.rotorSpecs, reflectorSpec := js.reflectorSpec,
           plugboardPairs := pairs,
           currentRotorPositions := js.currentRotorPositions }

/-- `Enigma.SaveSettingsToJSON`. -/
def Enigma.saveSettingsToJSON (e : Enigma) : Option JsonSettings := do
  let s ← e.getSettings
  some (marshalSettings s)

/-- `enigma.NewFromJSON` (and the body of `LoadSettingsFromJSON`). -/
def newFromJSON (js : JsonSettings) : Option Enigma := do
  let s ← unmarshalSettings js
  newFromSettings s

/-! ## Engine invariants -/

/-- A rotor as produced by `NewRotor` plus normalized setters: correct size,
normalized position/ring setting, mutually inverse tables. -/
@[reducible]
def Rotor.WF (r : Rotor) (n : Nat) : Prop :=
  r.size = n ∧ r.position < n ∧ r.ringSetting < n ∧ r.TablesOK

/-- A reflector as produced by `NewReflector`: an involutive table over
`[0, n)` (fixed-point freedom is not needed for reciprocity). -/
@[reducible]
def Reflector.WF (rf : Reflector) (n : Nat) : Prop :=
  rf.size = n ∧ ∀ i, i < n →
    rf.mapping.getD i 0 < n ∧ rf.mapping.getD (rf.mapping.getD i 0) 0 = i

/-- A plugboard whose mapping is an involution of `[0, n)`. -/
@[reducible]
def Plugboard.WF (pb : Plugboard) (n : Nat) : Prop :=
  pb.size = n ∧ ∀ i, i < n → pb.process i < n ∧ pb.process (pb.process i) = i

/-- A validly constructed engine: every component agrees with the alphabet
and carries the constructor-established invariants. -/
@[reducible]
def Enigma.WF (e : Enigma) : Prop :=
  0 < e.alphabet.size ∧ e.alphabet.runes.Nodup ∧
  (∀ r ∈ e.rotors, r.WF e.alphabet.size) ∧
  e.reflector.WF e.alphabet.size ∧ e.plugboard.WF e.alphabet.size

/-- Equality of all rotor fields except the (stepping-mutable) position. -/
def Rotor.eqButPos (a b : Rotor) : Prop :=
  a.id = b.id ∧ a.forwardMap = b.forwardMap ∧ a.backwardMap = b.backwardMap ∧
  a.notches = b.notches ∧ a.ringSetting = b.ringSetting ∧ a.size = b.size

namespace Rotor

theorem eqButPos_refl (a : Rotor) : a.eqButPos a :=
  ⟨rfl, rfl, rfl, rfl, rfl, rfl⟩

theorem eqButPos_trans {a b c : Rotor} (h1 : a.eqButPos b) (h2 : b.eqButPos c) :
    a.eqButPos c := by
  obtain ⟨x1, x2, x3, x4, x5, x6⟩ := h1
  obtain ⟨y1, y2, y3, y4, y5, y6⟩ := h2
  exact ⟨x1.trans y1, x2.trans y2, x3.trans y3, x4.trans y4, x5.trans y5, x6.trans y6⟩

theorem eqButPos_step (a : Rotor) : a.step.eqButPos a :=
  ⟨rfl, rfl, rfl, rfl, rfl, rfl⟩

theorem eq_of_eqButPos {a b : Rotor} (h : a.eqButPos b) (hp : a.position = b.position) :
    a = b := by
  obtain ⟨x1, x2, x3, x4, x5, x6⟩ := h
  cases a
  cases b
  simp_all

theorem wf_step {r : Rotor} {n : Nat} (h : r.WF n) (hn : 0 < n) : r.step.WF n := by
  obtain ⟨h1, h2, h3, h4⟩ := h
  refine ⟨h1, ?_, h3, h4⟩
  show (r.position + 1) % r.size < n
  rw [h1]
  exact Nat.mod_lt _ hn

theorem wf_of_eqButPos {a b : Rotor} {n : Nat} (h : a.eqButPos b) (hb : b.WF n)
    (hp : a.position < n) : a.WF n := by
  obtain ⟨x1, x2, x3, x4, x5, x6⟩ := h
  obtain ⟨y1, y2, y3, y4⟩ := hb
  refine ⟨x6.trans y1, hp, x5 ▸ y3, ?_⟩
  unfold TablesOK at y4 ⊢
  rw [x2, x3, x6]
  exact y4

end Rotor

theorem getD_set_cases (rs : List Rotor) (j : Nat) (v : Rotor) (k : Nat) :
    (rs.set j v).getD k default
      = if j = k ∧ j < rs.length then v else rs.getD k default := by
  by_cases h : j = k ∧ j < rs.length
  · rw [if_pos h]
    obtain ⟨rfl, hlt⟩ := h
    rw [List.getD_eq_getElem?_getD, List.getElem?_set_eq_of_lt v hlt]
    rfl
  · rw [if_neg h]
    by_cases hjk : j = k
    · subst hjk
      have hge : rs.length ≤ j := by omega
      rw [List.getD_eq_getElem?_getD, List.getD_eq_getElem?_getD,
        List.getElem?_eq_none (by simpa using hge),
        List.getElem?_eq_none hge]
    · rw [List.getD_eq_getElem?_getD, List.getElem?_set_ne hjk,
        ← List.getD_eq_getElem?_getD]

namespace Enigma

theorem stepScan_length (dbl : Bool) (n : Nat) :
    ∀ (i : Nat) (rs : List Rotor), (stepScan dbl n i rs).length = rs.length := by
  intro i
  induction i with
  | zero =>
    intro rs
    unfold stepScan
    split
    · rw [List.length_set]
    · split
      · rw [List.length_set]
      · rfl
  | succ i1 ih =>
    intro rs
    unfold stepScan
    split
    · rw [ih, List.length_set]
    · split
      · rw [ih, List.length_set]
      · rfl

theorem stepScan_eqButPos (dbl : Bool) (n : Nat) :
    ∀ (i : Nat) (rs : List Rotor) (k : Nat),
      ((stepScan dbl n i rs).getD k default).eqButPos (rs.getD k default) := by
  have hset : ∀ (rs : List Rotor) (j k : Nat),
      ((rs.set j ((rs.getD j default).step)).getD k default).eqButPos
        (rs.getD k default) := by
    intro rs j k
    rw [getD_set_cases]
    split
    · rename_i h
      obtain ⟨rfl, _⟩ := h
      exact Rotor.eqButPos_step _
    · exact Rotor.eqButPos_refl _
  intro i
  induction i with
  | zero =>
    intro rs k
    unfold stepScan
    split
    · exact hset rs 0 k
    · split
      · exact hset rs 0 k
      · exact Rotor.eqButPos_refl _
  | succ i1 ih =>
    intro rs k
    unfold stepScan
    split
    · exact Rotor.eqButPos_trans (ih _ k) (hset rs (i1 + 1) k)
    · split
      · exact Rotor.eqButPos_trans (ih _ k) (hset rs (i1 + 1) k)
      · exact Rotor.eqButPos_refl _

theorem stepScan_preserves (P : Rotor → Prop) (hP : ∀ r, P r → P r.step)
    (dbl : Bool) (n : Nat) :
    ∀ (i : Nat) (rs : List Rotor), (∀ r ∈ rs, P r) →
      ∀ r ∈ stepScan dbl n i rs, P r := by
  have hset : ∀ (rs : List Rotor) (j : Nat), (∀ r ∈ rs, P r) →
      ∀ r ∈ rs.set j ((rs.getD j default).step), P r := by
    intro rs j hall r hr
    by_cases hj : j < rs.length
    · rcases List.mem_or_eq_of_mem_set hr with hmem | rfl
      · exact hall r hmem
      · refine hP _ (hall _ ?_)
        rw [List.getD_eq_getElem _ _ hj]
        exact List.getElem_mem hj
    · rw [List.set_eq_of_length_le (by omega)] at hr
      exact hall r hr
  intro i
  induction i with
  | zero =>
    intro rs hall
    unfold stepScan
    split
    · exact hset rs 0 hall
    · split
      · exact hset rs 0 hall
      · exact hall
  | succ i1 ih =>
    intro rs hall
    unfold stepScan
    split
    · exact ih _ (hset rs (i1 + 1) hall)
    · split
      · exact ih _ (hset rs (i1 + 1) hall)
      · exact hall

theorem stepRotors_components (e : Enigma) :
    (e.stepRotors).alphabet = e.alphabet ∧ (e.stepRotors).reflector = e.reflector
    ∧ (e.stepRotors).plugboard = e.plugboard
    ∧ (e.stepRotors).initialSettings = e.initialSettings := by
  unfold stepRotors
  dsimp only
  split
  · exact ⟨rfl, rfl, rfl, rfl⟩
  · split
    · exact ⟨rfl, rfl, rfl, rfl⟩
    · exact ⟨rfl, rfl, rfl, rfl⟩

theorem stepRotors_rotors (e : Enigma) :
    (e.stepRotors).rotors.length = e.rotors.length
    ∧ ∀ k, ((e.stepRotors).rotors.getD k default).eqButPos (e.rotors.getD k default) := by
  have hset : ∀ (rs : List Rotor) (j k : Nat),
      ((rs.set j ((rs.getD j default).step)).getD k default).eqButPos
        (rs.getD k default) := by
    intro rs j k
    rw [getD_set_cases]
    split
    · rename_i h
      obtain ⟨rfl, _⟩ := h
      exact Rotor.eqButPos_step _
    · exact Rotor.eqButPos_refl _
  unfold stepRotors
  dsimp only
  split
  · exact ⟨rfl, fun k => Rotor.eqButPos_refl _⟩
  · split
    · refine ⟨?_, ?_⟩
      · show (stepScan _ _ _ _).length = _
        rw [stepScan_length, List.length_set]
      · intro k
        exact Rotor.eqButPos_trans (stepScan_eqButPos _ _ _ _ k)
          (hset e.rotors (e.rotors.length - 1) k)
    · refine ⟨List.length_set _ _ _, fun k => hset e.rotors (e.rotors.length - 1) k⟩

theorem stepRotors_wf {e : Enigma} (hwf : e.WF) : e.stepRotors.WF := by
  obtain ⟨hn, hnd, hrot, hrefl, hpb⟩ := hwf
  obtain ⟨ha, hf, hp, hi⟩ := stepRotors_components e
  refine ⟨by rw [ha]; exact hn, by rw [ha]; exact hnd, ?_, by rw [ha, hf]; exact hrefl,
    by rw [ha, hp]; exact hpb⟩
  rw [ha]
  have hstep : ∀ r : Rotor, r.WF e.alphabet.size → r.step.WF e.alphabet.size :=
    fun r h => Rotor.wf_step h hn
  unfold stepRotors
  dsimp only
  split
  · exact hrot
  · split
    · exact stepScan_preserves _ hstep _ _ _ _
        (fun r hr => by
          rcases List.mem_or_eq_of_mem_set hr with hmem | rfl
          · exact hrot r hmem
          · refine hstep _ (hrot _ ?_)
            have hj : e.rotors.length - 1 < e.rotors.length := by
              rename_i hne _
              rw [List.isEmpty_iff] at hne
              have : e.rotors.length ≠ 0 := fun h0 => hne (List.length_eq_zero.mp h0)
              omega
            rw [List.getD_eq_getElem _ _ hj]
            exact List.getElem_mem hj)
    · intro r hr
      rcases List.mem_or_eq_of_mem_set hr with hmem | rfl
      · exact hrot r hmem
      · refine hstep _ (hrot _ ?_)
        have hj : e.rotors.length - 1 < e.rotors.length := by
          rename_i hne _
          rw [List.isEmpty_iff] at hne
          have : e.rotors.length ≠ 0 := fun h0 => hne (List.length_eq_zero.mp h0)
          omega
        rw [List.getD_eq_getElem _ _ hj]
        exact List.getElem_mem hj

end Enigma

/-! ## The per-character transform is an involution -/

namespace Rotor

theorem wf_forward_lt {r : Rotor} {n : Nat} (h : r.WF n) {i : Nat} (hi : i < n) :
    r.forward i < n := by
  obtain ⟨h1, h2, h3, h4⟩ := h
  subst h1
  exact (backward_forward r h4 h2 h3 hi).2

theorem wf_backward_lt {r : Rotor} {n : Nat} (h : r.WF n) {i : Nat} (hi : i < n) :
    r.backward i < n := by
  obtain ⟨h1, h2, h3, h4⟩ := h
  subst h1
  exact (forward_backward r h4 h2 h3 hi).2

theorem wf_backward_forward {r : Rotor} {n : Nat} (h : r.WF n) {i : Nat} (hi : i < n) :
    r.backward (r.forward i) = i := by
  obtain ⟨h1, h2, h3, h4⟩ := h
  subst h1
  exact (backward_forward r h4 h2 h3 hi).1

theorem wf_forward_backward {r : Rotor} {n : Nat} (h : r.WF n) {i : Nat} (hi : i < n) :
    r.forward (r.backward i) = i := by
  obtain ⟨h1, h2, h3, h4⟩ := h
  subst h1
  exact (forward_backward r h4 h2 h3 hi).1

end Rotor

theorem Reflector.wf_reflect {rf : Reflector} {n : Nat} (h : rf.WF n) {x : Nat}
    (hx : x < n) : rf.reflect x < n ∧ rf.reflect (rf.reflect x) = x := by
  obtain ⟨h1, h2⟩ := h
  have he : rf.reflect x = rf.mapping.getD x 0 := by
    unfold Reflector.reflect
    rw [if_neg (by omega)]
  have hlt : rf.reflect x < n := by
    rw [he]
    exact (h2 x hx).1
  refine ⟨hlt, ?_⟩
  have he2 : rf.reflect (rf.mapping.getD x 0) = rf.mapping.getD (rf.mapping.getD x 0) 0 := by
    unfold Reflector.reflect
    rw [if_neg (by have := (h2 x hx).1; omega)]
  rw [he, he2]
  exact (h2 x hx).2

theorem foldr_forward_lt {n : Nat} :
    ∀ (rs : List Rotor), (∀ r ∈ rs, r.WF n) → ∀ {x : Nat}, x < n →
      rs.foldr (fun r c => r.forward c) x < n := by
  intro rs
  induction rs with
  | nil => intro _ x hx; exact hx
  | cons r rest ih =>
    intro hall x hx
    exact Rotor.wf_forward_lt (hall r (List.mem_cons_self r rest))
      (ih (fun q hq => hall q (List.mem_cons_of_mem r hq)) hx)

theorem foldl_backward_lt {n : Nat} :
    ∀ (rs : List Rotor), (∀ r ∈ rs, r.WF n) → ∀ {x : Nat}, x < n →
      rs.foldl (fun c r => r.backward c) x < n := by
  intro rs
  induction rs with
  | nil => intro _ x hx; exact hx
  | cons r rest ih =>
    intro hall x hx
    exact ih (fun q hq => hall q (List.mem_cons_of_mem r hq))
      (Rotor.wf_backward_lt (hall r (List.mem_cons_self r rest)) hx)

theorem foldl_backward_foldr_forward {n : Nat} :
    ∀ (rs : List Rotor), (∀ r ∈ rs, r.WF n) → ∀ {x : Nat}, x < n →
      rs.foldl (fun c r => r.backward c) (rs.foldr (fun r c => r.forward c) x) = x := by
  intro rs
  induction rs with
  | nil => intro _ x _; rfl
  | cons r rest ih =>
    intro hall x hx
    have hrest : ∀ q ∈ rest, q.WF n := fun q hq => hall q (List.mem_cons_of_mem r hq)
    show rest.foldl (fun c q => q.backward c)
        (r.backward (r.forward (rest.foldr (fun q c => q.forward c) x))) = x
    rw [Rotor.wf_backward_forward (hall r (List.mem_cons_self r rest))
      (foldr_forward_lt rest hrest hx)]
    exact ih hrest hx

theorem foldr_forward_foldl_backward {n : Nat} :
    ∀ (rs : List Rotor), (∀ r ∈ rs, r.WF n) → ∀ {x : Nat}, x < n →
      rs.foldr (fun r c => r.forward c) (rs.foldl (fun c r => r.backward c) x) = x := by
  intro rs
  induction rs with
  | nil => intro _ x _; rfl
  | cons r rest ih =>
    intro hall x hx
    have hrest : ∀ q ∈ rest, q.WF n := fun q hq => hall q (List.mem_cons_of_mem r hq)
    show r.forward (rest.foldr (fun q c => q.forward c)
        (rest.foldl (fun c q => q.backward c)
          (r.backward x))) = x
    rw [ih hrest (Rotor.wf_backward_lt (hall r (List.mem_cons_self r rest)) hx)]
    exact Rotor.wf_forward_backward (hall r (List.mem_cons_self r rest)) hx

namespace Enigma

theorem processCharacter_snd (e : Enigma) (x : Nat) :
    (e.processCharacter x).2
      = e.stepRotors.plugboard.process
          (e.stepRotors.rotors.foldl (fun c r => r.backward c)
            (e.stepRotors.reflector.reflect
              (e.stepRotors.rotors.foldr (fun r c => r.forward c)
                (e.stepRotors.plugboard.process x)))) := rfl

theorem processCharacter_spec (e : Enigma) (hwf : e.WF) {i : Nat}
    (hi : i < e.alphabet.size) :
    (e.processCharacter i).2 < e.alphabet.size
    ∧ (e.processCharacter ((e.processCharacter i).2)).2 = i := by
  have hwf1 : e.stepRotors.WF := stepRotors_wf hwf
  have halph : e.stepRotors.alphabet = e.alphabet := (stepRotors_components e).1
  have hpb : e.stepRotors.plugboard.WF e.alphabet.size := by
    have := hwf1.2.2.2.2
    rwa [halph] at this
  have hrefl : e.stepRotors.reflector.WF e.alphabet.size := by
    have := hwf1.2.2.2.1
    rwa [halph] at this
  have hrot : ∀ r ∈ e.stepRotors.rotors, r.WF e.alphabet.size := by
    have := hwf1.2.2.1
    rwa [halph] at this
  have h1 : e.stepRotors.plugboard.process i < e.alphabet.size := (hpb.2 i hi).1
  have h2 := foldr_forward_lt e.stepRotors.rotors hrot h1
  have h3 := (Reflector.wf_reflect hrefl h2).1
  have h4 := foldl_backward_lt e.stepRotors.rotors hrot h3
  have h5 := (hpb.2 _ h4).1
  rw [processCharacter_snd]
  refine ⟨h5, ?_⟩
  rw [processCharacter_snd]
  rw [(hpb.2 _ h4).2]
  rw [foldr_forward_foldl_backward e.stepRotors.rotors hrot h3]
  rw [(Reflector.wf_reflect hrefl h2).2]
  rw [foldl_backward_foldr_forward e.stepRotors.rotors hrot h1]
  exact (hpb.2 i hi).2

theorem processIndices_state :
    ∀ (idxs : List Nat) (e : Enigma),
      (e.processIndices idxs).1.alphabet = e.alphabet
      ∧ (e.processIndices idxs).1.reflector = e.reflector
      ∧ (e.processIndices idxs).1.plugboard = e.plugboard
      ∧ (e.processIndices idxs).1.initialSettings = e.initialSettings
      ∧ (e.processIndices idxs).1.rotors.length = e.rotors.length
      ∧ ∀ k, ((e.processIndices idxs).1.rotors.getD k default).eqButPos
          (e.rotors.getD k default) := by
  intro idxs
  induction idxs with
  | nil =>
    intro e
    exact ⟨rfl, rfl, rfl, rfl, rfl, fun k => Rotor.eqButPos_refl _⟩
  | cons i rest ih =>
    intro e
    have hstep : (e.processIndices (i :: rest)).1 = (e.stepRotors.processIndices rest).1 :=
      rfl
    obtain ⟨s1, s2, s3, s4⟩ := stepRotors_components e
    obtain ⟨r5, r6⟩ := stepRotors_rotors e
    obtain ⟨i1, i2, i3, i4, i5, i6⟩ := ih e.stepRotors
    rw [hstep]
    refine ⟨i1.trans s1, i2.trans s2, i3.trans s3, i4.trans s4, i5.trans r5,
      fun k => Rotor.eqButPos_trans (i6 k) (r6 k)⟩

theorem processIndices_wf :
    ∀ (idxs : List Nat) (e : Enigma), e.WF → (e.processIndices idxs).1.WF := by
  intro idxs
  induction idxs with
  | nil => intro e hwf; exact hwf
  | cons i rest ih =>
    intro e hwf
    exact ih e.stepRotors (stepRotors_wf hwf)

theorem processIndices_roundtrip :
    ∀ (idxs : List Nat) (e : Enigma), e.WF → (∀ x ∈ idxs, x < e.alphabet.size) →
      (∀ x ∈ (e.processIndices idxs).2, x < e.alphabet.size)
      ∧ (e.processIndices idxs).2.length = idxs.length
      ∧ e.processIndices (e.processIndices idxs).2 = ((e.processIndices idxs).1, idxs) := by
  intro idxs
  induction idxs with
  | nil =>
    intro e _ _
    exact ⟨by simp [Enigma.processIndices], rfl, rfl⟩
  | cons i rest ih =>
    intro e hwf hall
    have hi : i < e.alphabet.size := hall i (List.mem_cons_self i rest)
    have hrest : ∀ x ∈ rest, x < e.alphabet.size :=
      fun x hx => hall x (List.mem_cons_of_mem i hx)
    have halph : e.stepRotors.alphabet = e.alphabet := (stepRotors_components e).1
    have hwf1 : e.stepRotors.WF := stepRotors_wf hwf
    have hrest1 : ∀ x ∈ rest, x < e.stepRotors.alphabet.size := by
      rw [halph]; exact hrest
    obtain ⟨hb, hlen, hrt⟩ := ih e.stepRotors hwf1 hrest1
    obtain ⟨ho, hinv⟩ := processCharacter_spec e hwf hi
    have hcons : e.processIndices (i :: rest)
        = ((e.stepRotors.processIndices rest).1,
           (e.processCharacter i).2 :: (e.stepRotors.processIndices rest).2) := rfl
    rw [hcons]
    refine ⟨?_, by simpa using hlen, ?_⟩
    · intro x hx
      rcases List.mem_cons.mp hx with rfl | hmem
      · exact ho
      · rw [← halph]
        exact hb x hmem
    · have hcons2 : e.processIndices ((e.processCharacter i).2
            :: (e.stepRotors.processIndices rest).2)
          = (((e.processCharacter ((e.processCharacter i).2)).1.processIndices
              (e.stepRotors.processIndices rest).2).1,
             (e.processCharacter ((e.processCharacter i).2)).2
              :: ((e.processCharacter ((e.processCharacter i).2)).1.processIndices
                  (e.stepRotors.processIndices rest).2).2) := rfl
      rw [hcons2]
      have hfst : (e.processCharacter ((e.processCharacter i).2)).1 = e.stepRotors := rfl
      rw [hfst, hinv, hrt]

/-- The reset loop undoes every position change when the stored initial
positions are the original engine's positions. -/
theorem resetPositions_restores :
    ∀ (rt rs : List Rotor) (specs : List RotorSpec),
      rt.length = rs.length →
      (∀ k, (rt.getD k default).eqButPos (rs.getD k default)) →
      specs.map RotorSpec.position = rs.map Rotor.position →
      (∀ r ∈ rs, r.position < r.size) →
      Enigma.resetPositions rt specs = rs := by
  intro rt
  induction rt with
  | nil =>
    intro rs specs hlen _ hmap _
    have hrs : rs = [] := by
      cases rs with
      | nil => rfl
      | cons a l => simp at hlen
    subst hrs
    have hspecs : specs = [] := by
      cases specs with
      | nil => rfl
      | cons s l => simp at hmap
    subst hspecs
    rfl
  | cons r1 tl ih =>
    intro rs specs hlen hpt hmap hpos
    cases rs with
    | nil => simp at hlen
    | cons r rsl =>
      cases specs with
      | nil => simp at hmap
      | cons s tls =>
        have hmap0 : s.position = r.position ∧ tls.map RotorSpec.position
            = rsl.map Rotor.position := by
          simpa using hmap
        have h0 : r1.eqButPos r := by
          have := hpt 0
          simpa using this
        have hpos0 : r.position < r.size := hpos r (List.mem_cons_self r rsl)
        show r1.setPosition s.position :: Enigma.resetPositions tl tls = r :: rsl
        congr 1
        · refine Rotor.eq_of_eqButPos
            (Rotor.eqButPos_trans ⟨rfl, rfl, rfl, rfl, rfl, rfl⟩ h0) ?_
          show s.position % r1.size = r.position
          have hsz : r1.size = r.size := h0.2.2.2.2.2
          rw [hsz, hmap0.1]
          exact Nat.mod_eq_of_lt hpos0
        · refine ih rsl tls (by simpa using hlen) ?_ hmap0.2
            (fun q hq => hpos q (List.mem_cons_of_mem r hq))
          intro k
          have := hpt (k + 1)
          simpa using this

/-- After processing, `Reset` returns the engine to its exact pre-call value,
provided the stored initial positions are the original current positions. -/
theorem reset_after_processIndices (e : Enigma) (hwf : e.WF) (idxs : List Nat)
    (hinit : e.initialSettings.rotorSpecs.map RotorSpec.position
      = e.rotors.map Rotor.position) :
    (e.processIndices idxs).1.reset = e := by
  obtain ⟨i1, i2, i3, i4, i5, i6⟩ := processIndices_state idxs e
  have hpos : ∀ r ∈ e.rotors, r.position < r.size := by
    intro r hr
    have := hwf.2.2.1 r hr
    omega
  have hrotors : Enigma.resetPositions (e.processIndices idxs).1.rotors
      ((e.processIndices idxs).1.initialSettings.rotorSpecs) = e.rotors := by
    rw [i4]
    exact resetPositions_restores _ _ _ i5 i6 hinit hpos
  show { (e.processIndices idxs).1 with
      rotors := Enigma.resetPositions (e.processIndices idxs).1.rotors
        ((e.processIndices idxs).1.initialSettings.rotorSpecs) } = e
  dsimp only
  rw [hrotors, i1, i2, i3, i4]

end Enigma

/-! ## Claim C1: encrypt, reset, decrypt round trip -/

theorem mapOpt_isSome {α β : Type} {f : α → Option β} :
    ∀ {s : List α}, (∀ a ∈ s, (f a).isSome = true) → ∃ l, mapOpt f s = some l := by
  intro s
  induction s with
  | nil => intro _; exact ⟨[], rfl⟩
  | cons a s ih =>
    intro hall
    obtain ⟨b, hb⟩ := Option.isSome_iff_exists.mp (hall a (List.mem_cons_self a s))
    obtain ⟨l, hl⟩ := ih (fun x hx => hall x (List.mem_cons_of_mem a hx))
    exact ⟨b :: l, by simp [mapOpt, hb, hl]⟩

theorem mapOpt_of_forall₂ {α β : Type} {f : α → Option β} :
    ∀ {s : List α} {l : List β},
      List.Forall₂ (fun a b => f a = some b) s l → mapOpt f s = some l := by
  intro s
  induction s with
  | nil =>
    intro l h
    cases h
    rfl
  | cons a s ih =>
    intro l h
    cases h with
    | cons hab htail =>
      simp [mapOpt, hab, ih htail]

theorem forall₂_swap_rel {α β : Type} {R : α → β → Prop} {S : β → α → Prop}
    (hrs : ∀ a b, R a b → S b a) :
    ∀ {l1 : List α} {l2 : List β}, List.Forall₂ R l1 l2 → List.Forall₂ S l2 l1 := by
  intro l1
  induction l1 with
  | nil =>
    intro l2 h
    cases h
    exact List.Forall₂.nil
  | cons a s ih =>
    intro l2 h
    cases h with
    | cons hab htail => exact List.Forall₂.cons (hrs _ _ hab) (ih htail)

namespace Alphabet

theorem lookupIdx_isSome_of_mem {c : Char} :
    ∀ {l : List Char}, c ∈ l → (lookupIdx c l).isSome = true := by
  intro l
  induction l with
  | nil => intro h; simp at h
  | cons r rest ih =>
    intro h
    by_cases hrc : r = c
    · simp [lookupIdx, hrc]
    · have hmem : c ∈ rest := by
        rcases List.mem_cons.mp h with rfl | hm
        · exact absurd rfl hrc
        · exact hm
      have hrec := ih hmem
      cases hl : lookupIdx c rest with
      | none => rw [hl] at hrec; simp at hrec
      | some j =>
        show (lookupIdx c (r :: rest)).isSome = true
        unfold lookupIdx
        rw [if_neg hrc, hl]
        rfl

theorem indexToRune_mem {a : Alphabet} {i : Nat} {c : Char}
    (h : a.indexToRune i = some c) : c ∈ a.runes := by
  have hi : i < a.runes.length := by
    by_contra hc
    rw [show a.indexToRune i = a.runes[i]? from rfl,
      List.getElem?_eq_none (by omega)] at h
    exact Option.noConfusion h
  rw [show a.indexToRune i = a.runes[i]? from rfl, List.getElem?_eq_getElem hi] at h
  exact Option.some_inj.mp h ▸ List.getElem_mem hi

theorem validateString_none {a : Alphabet} {t : List Char}
    (h : ∀ c ∈ t, a.containsRune c = true) : a.validateString t = none := by
  refine List.find?_eq_none.mpr ?_
  intro c hc
  rw [h c hc]
  decide

end Alphabet

/-- Claim C1: for every well-formed engine whose current rotor positions
equal its stored initial positions (as every freshly constructed engine
satisfies) and every string over the engine's alphabet, encrypting,
resetting, then decrypting the ciphertext returns exactly the plaintext. -/
theorem c1_encrypt_reset_decrypt (e : Enigma) (hwf : e.WF) (t : List Char)
    (ht : ∀ c ∈ t, e.alphabet.containsRune c = true)
    (hinit : e.initialSettings.rotorSpecs.map RotorSpec.position
      = e.rotors.map Rotor.position) :
    ∃ (e1 : Enigma) (ct : List Char),
      e.encrypt t = (e1, some ct) ∧ (e1.reset.decrypt ct).2 = some t := by
  cases t with
  | nil => exact ⟨e, [], rfl, rfl⟩
  | cons c0 t0 =>
    set t := c0 :: t0 with hts
    have hval : e.alphabet.validateString t = none := Alphabet.validateString_none ht
    obtain ⟨idxs, hidxs⟩ := mapOpt_isSome (f := e.alphabet.runeToIndex) ht
    have hlt : ∀ x ∈ idxs, x < e.alphabet.size := stringToIndices_lt hidxs
    obtain ⟨i1, i2, i3, i4, i5, i6⟩ := Enigma.processIndices_state idxs e
    obtain ⟨hob, holen, hrt⟩ := Enigma.processIndices_roundtrip idxs e hwf hlt
    have hoblen : ∀ x ∈ (e.processIndices idxs).2, x < e.alphabet.runes.length :=
      fun x hx => hob x hx
    obtain ⟨ct, hct⟩ := mapOpt_isSome (f := e.alphabet.indexToRune)
      (s := (e.processIndices idxs).2)
      (fun x hx => by
        show (e.alphabet.runes[x]?).isSome = true
        rw [List.getElem?_eq_getElem (hoblen x hx)]
        rfl)
    have hctf : List.Forall₂ (fun x b => e.alphabet.indexToRune x = some b)
        (e.processIndices idxs).2 ct := mapOpt_forall₂ _ hct
    have hct2 : (e.processIndices idxs).1.alphabet.indicesToString
        (e.processIndices idxs).2 = some ct := by
      rw [i1]
      exact hct
    have hidxs2 : e.alphabet.stringToIndices t = some idxs := hidxs
    have henc : e.encrypt t = ((e.processIndices idxs).1, some ct) := by
      unfold Enigma.encrypt Enigma.processText
      rw [if_neg (by simp [hts]), hval, hidxs2]
      dsimp only
      rw [hct2]
    -- the ciphertext is again a string over the alphabet
    have hctmem : ∀ b ∈ ct, e.alphabet.containsRune b = true := by
      intro b hb
      obtain ⟨x, _, hxb⟩ := mapOpt_mem_right hct b hb
      exact Alphabet.lookupIdx_isSome_of_mem (Alphabet.indexToRune_mem hxb)
    have hvalct : e.alphabet.validateString ct = none := Alphabet.validateString_none hctmem
    have hs2ict : e.alphabet.stringToIndices ct = some (e.processIndices idxs).2 := by
      refine mapOpt_of_forall₂ ?_
      refine forall₂_swap_rel ?_ hctf
      intro x b hxb
      exact Alphabet.runeToIndex_of_indexToRune hwf.2.1 hxb
    have hctlen : ct.length = t.length := by
      rw [(mapOpt_forall₂ _ hct).length_eq.symm, holen,
        (mapOpt_forall₂ _ hidxs).length_eq.symm]
    have hctne : ¬(ct.isEmpty = true) := by
      rw [List.isEmpty_iff]
      intro he
      rw [he] at hctlen
      simp [hts] at hctlen
    have hts2 : (e.processIndices idxs).1.alphabet.indicesToString idxs = some t := by
      rw [i1]
      refine mapOpt_of_forall₂ ?_
      refine forall₂_swap_rel ?_ (mapOpt_forall₂ _ hidxs)
      intro a b hab
      exact Alphabet.indexToRune_of_runeToIndex hab
    have hdec : e.decrypt ct = ((e.processIndices idxs).1, some t) := by
      unfold Enigma.decrypt Enigma.processText
      rw [if_neg hctne, hvalct, hs2ict]
      dsimp only
      rw [hrt]
      dsimp only
      rw [hts2]
    have hreset : (e.processIndices idxs).1.reset = e :=
      Enigma.reset_after_processIndices e hwf idxs hinit
    refine ⟨(e.processIndices idxs).1, ct, henc, ?_⟩
    rw [hreset, hdec]

/-- A small concrete engine over `AB` used to witness claim theorems. -/
def abEngine : Enigma :=
  { alphabet := ⟨['A', 'B']⟩,
    rotors := [{ id := "R1", forwardMap := [0, 1], backwardMap := [0, 1], notches := [],
                 position := 0, ringSetting := 0, size := 2 }],
    reflector := { id := "UKW", mapping := [1, 0], size := 2 },
    plugboard := Plugboard.new ⟨['A', 'B']⟩,
    initialSettings :=
      { schemaVersion := 1, alphabet := ['A', 'B'],
        rotorSpecs := [{ id := "R1", forwardMapping := ['A', 'B'], notches := [],
                         position := 0, ringSetting := 0 }],
        reflectorSpec := { id := "UKW", mapping := ['B', 'A'] },
        plugboardPairs := [], currentRotorPositions := [0] } }

/-- Witness for `c1_encrypt_reset_decrypt`: the concrete engine over `AB`
and the plaintext `ABA`. -/
theorem c1_encrypt_reset_decrypt_witness :
    ∃ (e1 : Enigma) (ct : List Char),
      abEngine.encrypt ['A', 'B', 'A'] = (e1, some ct)
      ∧ (e1.reset.decrypt ct).2 = some ['A', 'B', 'A'] :=
  c1_encrypt_reset_decrypt abEngine (by decide) ['A', 'B', 'A'] (by decide) (by decide)

/-! ## Claim C9: reflector involution, no fixed points, rejection, odd size -/

/-- Claim C9: every reflector built by `NewReflector` or `RandomReflector`
satisfies `Reflect(Reflect(i)) = i` and `Reflect(i) ≠ i` for all `i < n`;
a successful `NewReflector` moreover certifies that the converted mapping has
no self-mapping, no duplicated target, and is reciprocal (so any mapping
violating one of these is rejected); and `RandomReflector` fails on every
odd-sized alphabet, for every random supply. -/
theorem c9_reflector_involution :
    (∀ (idv : String) (alph : Alphabet) (mapping : List Char) (r : Reflector) (i : Nat),
      Reflector.newReflector idv alph mapping = some r → i < r.size →
        r.reflect (r.reflect i) = i ∧ r.reflect i ≠ i)
    ∧ (∀ (supply : List Nat) (idv : String) (alph : Alphabet) (r : Reflector) (i : Nat),
        randomReflector supply idv alph = some r → i < r.size →
        r.reflect (r.reflect i) = i ∧ r.reflect i ≠ i)
    ∧ (∀ (idv : String) (alph : Alphabet) (mapping : List Char) (r : Reflector),
        Reflector.newReflector idv alph mapping = some r →
        ∃ outs, alph.stringToIndices mapping = some outs ∧ outs.Nodup ∧
          (∀ k, k < alph.size → outs.getD k 0 ≠ k) ∧
          (∀ k, k < alph.size → outs.getD (outs.getD k 0) 0 = k))
    ∧ (∀ (supply : List Nat) (idv : String) (alph : Alphabet),
        alph.size % 2 = 1 → randomReflector supply idv alph = none) := by
  have hrefl : ∀ (idv : String) (alph : Alphabet) (mapping : List Char) (r : Reflector)
      (i : Nat), Reflector.newReflector idv alph mapping = some r → i < r.size →
        r.reflect (r.reflect i) = i ∧ r.reflect i ≠ i := by
    intro idv alph mapping r i h hi
    obtain ⟨hsz, hml, helts, _, hnoself, hinv⟩ := Reflector.newReflector_ok h
    have hi2 : i < alph.size := hsz ▸ hi
    have hmi : r.mapping.getD i 0 < alph.size := by
      rw [List.getD_eq_getElem _ 0 (by omega)]
      exact helts _ (List.getElem_mem (by omega))
    have h1 : r.reflect i = r.mapping.getD i 0 := by
      unfold Reflector.reflect
      rw [if_neg (by omega)]
    constructor
    · rw [h1]
      unfold Reflector.reflect
      rw [if_neg (by omega)]
      exact hinv i hi2
    · rw [h1]
      exact hnoself i hi2
  refine ⟨hrefl, ?_, ?_, ?_⟩
  · intro supply idv alph r i h hi
    unfold randomReflector at h
    split at h
    · exact Option.noConfusion h
    · simp only [Option.bind_eq_bind, Option.bind_eq_some] at h
      obtain ⟨⟨available, s1⟩, _, h⟩ := h
      exact hrefl idv alph _ r i h hi
  · intro idv alph mapping r h
    unfold Reflector.newReflector at h
    split at h
    · exact Option.noConfusion h
    · rename_i hlen
      simp only [Option.bind_eq_bind, Option.bind_eq_some] at h
      obtain ⟨outs, houts, u, hu, h⟩ := h
      have hu2 : Reflector.checkSelfDup outs 0 (List.replicate alph.size false)
          = some () := by cases u; exact hu
      split at h
      · rename_i hall
        have hol : outs.length = alph.size := by
          rw [mapOpt_length houts]
          omega
        have helts : ∀ x ∈ outs, x < alph.size := stringToIndices_lt houts
        have hrepl : ∀ o ∈ outs, o < (List.replicate alph.size false).length := by
          intro o ho; rw [List.length_replicate]; exact helts o ho
        refine ⟨outs, houts, Reflector.checkSelfDup_nodup hu2 hrepl, ?_, ?_⟩
        · intro k hk
          have := Reflector.checkSelfDup_noself hu2 k (by omega)
          simpa using this
        · intro k hk
          have hall2 := List.all_eq_true.mp hall k (List.mem_range.mpr hk)
          simpa using hall2
      · exact Option.noConfusion h
  · intro supply idv alph h
    unfold randomReflector
    rw [if_pos (by omega)]

/-- Witness for `c9_reflector_involution`: the reflector `BADC` over `ABCD`
(the repository's own test reflector), plus an odd-sized failure. -/
theorem c9_reflector_involution_witness :
    (∃ r : Reflector,
      Reflector.newReflector "UKW" ⟨['A', 'B', 'C', 'D']⟩ ['B', 'A', 'D', 'C'] = some r
      ∧ r.reflect (r.reflect 2) = 2)
    ∧ randomReflector [0, 1, 2] "UKW" ⟨['A', 'B', 'C']⟩ = none := by
  constructor
  · have hsome : (Reflector.newReflector "UKW" ⟨['A', 'B', 'C', 'D']⟩
        ['B', 'A', 'D', 'C']).isSome = true := by decide
    obtain ⟨r, hr⟩ := Option.isSome_iff_exists.mp hsome
    exact ⟨r, hr, (c9_reflector_involution.1 "UKW" ⟨['A', 'B', 'C', 'D']⟩
      ['B', 'A', 'D', 'C'] r 2 hr (by
        have := (Reflector.newReflector_ok hr).1
        simp only [this]
        decide)).1⟩
  · exact c9_reflector_involution.2.2.2 [0, 1, 2] "UKW" ⟨['A', 'B', 'C']⟩ (by decide)

/-! ## Claim C2: failed operations and component state -/

/-- A plugboard over `ABCD` holding the single pair `A↔B`. -/
def c2Board : Plugboard :=
  ((Plugboard.new ⟨['A', 'B', 'C', 'D']⟩).addPair 'A' 'B').1

/-- Counterexample to claim C2 as stated: `SetPairsFromMap` clears the
plugboard BEFORE validating, so the failing call
`SetPairsFromMap {C→D}` (no reciprocal `D→C` entry) leaves a plugboard whose
pair count dropped from 1 to 0 instead of the untouched prior state. -/
theorem c2_counterexample :
    ((Plugboard.new ⟨['A', 'B', 'C', 'D']⟩).addPair 'A' 'B').2 = true
    ∧ c2Board.pairCount = 1
    ∧ (c2Board.setPairsFromMap [('C', 'D')]).2 = false
    ∧ (c2Board.setPairsFromMap [('C', 'D')]).1.pairCount = 0 := by
  refine ⟨by decide, by decide, by decide, by decide⟩

/-- Claim C2, amended: excluding `SetPairsFromMap` (and the settings-import
path built on it), a failed core operation leaves the component state
unchanged: a rejected `Encrypt`/`Decrypt` (input-validation failure) returns
the engine with no rotor advanced, a failed `AddPair` returns the plugboard
unchanged, and `RandomPairs` with an invalid count fails before clearing. -/
theorem c2_error_leaves_state :
    (∀ (e : Enigma) (t : List Char) (c : Char),
      e.alphabet.validateString t = some c → e.processText t = (e, none))
    ∧ (∀ (p : Plugboard) (r1 r2 : Char),
        (p.addPair r1 r2).2 = false → (p.addPair r1 r2).1 = p)
    ∧ (∀ (supply : List Nat) (p : Plugboard) (n : Int),
        n < 0 ∨ ((p.size / 2 : Nat) : Int) < n →
          p.randomPairs supply n = (p, false)) := by
  refine ⟨?_, ?_, ?_⟩
  · intro e t c h
    unfold Enigma.processText
    cases t with
    | nil => simp [Alphabet.validateString] at h
    | cons a s =>
      rw [if_neg (by simp)]
      rw [h]
  · intro p r1 r2 h
    cases h1 : p.alphabet.runeToIndex r1 with
    | none => simp [Plugboard.addPair, h1]
    | some idx1 =>
      cases h2 : p.alphabet.runeToIndex r2 with
      | none => simp [Plugboard.addPair, h1, h2]
      | some idx2 =>
        by_cases he : idx1 = idx2
        · simp [Plugboard.addPair, h1, h2, he]
        · by_cases hp1 : (lookupNat p.pairs idx1).isSome
          · simp [Plugboard.addPair, h1, h2, he, hp1]
          · by_cases hp2 : (lookupNat p.pairs idx2).isSome
            · simp [Plugboard.addPair, h1, h2, he, hp1, hp2]
            · exfalso
              simp [Plugboard.addPair, h1, h2, he, hp1, hp2] at h
  · intro supply p n h
    unfold Plugboard.randomPairs
    rcases h with h | h
    · rw [if_pos h]
    · rw [if_neg (by omega), if_pos (by exact_mod_cast h)]

/-- Witness for `c2_error_leaves_state`: a rejected single-symbol encryption
on a machine over `AB`, a failing `AddPair` (self-pair), and a negative
`RandomPairs` count. -/
theorem c2_error_leaves_state_witness :
    abEngine.processText ['X'] = (abEngine, none)
    ∧ ((Plugboard.new ⟨['A', 'B']⟩).addPair 'A' 'A').1 = Plugboard.new ⟨['A', 'B']⟩
    ∧ (Plugboard.new ⟨['A', 'B']⟩).randomPairs [] (-1)
        = (Plugboard.new ⟨['A', 'B']⟩, false) := by
  refine ⟨?_, ?_, ?_⟩
  · exact c2_error_leaves_state.1 abEngine ['X'] 'X' (by decide)
  · exact c2_error_leaves_state.2.1 (Plugboard.new ⟨['A', 'B']⟩) 'A' 'A' (by decide)
  · exact c2_error_leaves_state.2.2 [] (Plugboard.new ⟨['A', 'B']⟩) (-1) (by norm_num)

/-! ## Claim C4: the stepping mechanism -/

/-- Modelled from the claim C4 / spec §4.5 narration of the stepping rule:
scanning from the second-from-right rotor toward the leftmost (the index
list `[n-2, …, 0]`), a rotor steps exactly when the rotor to its right is
(currently) at a notch OR it is the second-from-right rotor and `doubleStep`
was recorded; the scan stops at the first rotor satisfying neither. -/
def claimScan (dbl : Bool) (n : Nat) : List Rotor → List Nat → List Rotor
  | rs, [] => rs
  | rs, i :: rest =>
    if (rs.getD (i + 1) default).isAtNotch ∨ (i = n - 2 ∧ dbl) then
      claimScan dbl n (rs.set i ((rs.getD i default).step)) rest
    else rs

/-- Modelled from the claim C4 narration, for machines with at least two
rotors: record `doubleStep` at the second-from-right rotor before any
motion, step the rightmost rotor once, then run the scan `n-2, …, 0`. -/
def claimStepRotors (rs : List Rotor) : List Rotor :=
  if rs.length < 2 then rs
  else
    claimScan ((rs.getD (rs.length - 2) default).isAtNotch) rs.length
      (rs.set (rs.length - 1) ((rs.getD (rs.length - 1) default).step))
      ((List.range (rs.length - 1)).reverse)

theorem stepScan_eq_claimScan (dbl : Bool) (n : Nat) :
    ∀ (i : Nat) (rs : List Rotor),
      Enigma.stepScan dbl n i rs = claimScan dbl n rs ((List.range (i + 1)).reverse) := by
  intro i
  induction i with
  | zero =>
    intro rs
    show Enigma.stepScan dbl n 0 rs = claimScan dbl n rs [0]
    unfold Enigma.stepScan claimScan
    by_cases h1 : (rs.getD 1 default).isAtNotch
    · rw [if_pos h1, if_pos (Or.inl h1)]
      rfl
    · by_cases h2 : 0 = n - 2 ∧ dbl
      · rw [if_neg h1, if_pos h2, if_pos (Or.inr h2)]
        rfl
      · rw [if_neg h1, if_neg h2, if_neg (not_or.mpr ⟨h1, h2⟩)]
  | succ i1 ih =>
    intro rs
    have hrange : (List.range (i1 + 2)).reverse = (i1 + 1) :: (List.range (i1 + 1)).reverse := by
      rw [List.range_succ, List.reverse_append]
      rfl
    rw [hrange]
    show Enigma.stepScan dbl n (i1 + 1) rs = claimScan dbl n rs ((i1 + 1) :: (List.range (i1 + 1)).reverse)
    unfold Enigma.stepScan claimScan
    by_cases h1 : (rs.getD (i1 + 1 + 1) default).isAtNotch
    · rw [if_pos (by simpa using h1), if_pos (Or.inl h1)]
      exact ih _
    · by_cases h2 : i1 + 1 = n - 2 ∧ dbl
      · rw [if_neg (by simpa using h1), if_pos h2, if_pos (Or.inr h2)]
        exact ih _
      · rw [if_neg (by simpa using h1), if_neg h2, if_neg (not_or.mpr ⟨h1, h2⟩)]

/-- Claim C4: on an engine with at least two rotors, the source's
`stepRotors` coincides exactly with the movement narrated by the claim
(`doubleStep` recorded before motion at the second-from-right rotor,
rightmost steps once, scan toward the leftmost stepping exactly under the
claim's two conditions and stopping at the first failure — in particular no
other rotor moves and the double-step case exists only at the
second-from-right index, whatever the rotor count). -/
theorem c4_stepping_mechanism (e : Enigma) (h2 : 2 ≤ e.rotors.length) :
    e.stepRotors = { e with rotors := claimStepRotors e.rotors } := by
  have hne : ¬(e.rotors.isEmpty = true) := by
    rw [List.isEmpty_iff]
    intro he
    rw [he] at h2
    simp at h2
  unfold Enigma.stepRotors claimStepRotors
  rw [if_neg hne, if_pos h2, if_pos h2, if_neg (by omega)]
  have hn : e.rotors.length - 2 + 1 = e.rotors.length - 1 := by omega
  rw [stepScan_eq_claimScan, hn]

/-- A concrete two-rotor machine (the repository's own stepping test:
notches at `B` and `C`) used to witness `c4_stepping_mechanism`. -/
def c4Engine : Enigma :=
  { alphabet := ⟨['A', 'B', 'C']⟩,
    rotors := [{ id := "R1", forwardMap := [1, 2, 0], backwardMap := [2, 0, 1],
                 notches := [1], position := 1, ringSetting := 0, size := 3 },
               { id := "R2", forwardMap := [2, 0, 1], backwardMap := [1, 2, 0],
                 notches := [2], position := 0, ringSetting := 0, size := 3 }],
    reflector := { id := "UKW", mapping := [1, 0, 2], size := 3 },
    plugboard := Plugboard.new ⟨['A', 'B', 'C']⟩,
    initialSettings :=
      { schemaVersion := 1, alphabet := ['A', 'B', 'C'],
        rotorSpecs := [], reflectorSpec := { id := "UKW", mapping := [] },
        plugboardPairs := [], currentRotorPositions := [] } }

/-- Witness for `c4_stepping_mechanism` at the concrete two-rotor machine. -/
theorem c4_stepping_mechanism_witness :
    c4Engine.stepRotors = { c4Engine with rotors := claimStepRotors c4Engine.rotors } :=
  c4_stepping_mechanism c4Engine (by decide)

/-! ## Claim C6: schema-version enforcement -/

/-- Counterexample to claim C6 as stated: the direct settings-value import
(`NewFromSettings`/`LoadSettings`) never reads `SchemaVersion`; importing a
settings value with `schema_version = 7` succeeds. -/
theorem c6_counterexample :
    (newFromSettings
      { schemaVersion := 7, alphabet := ['A', 'B'],
        rotorSpecs := [{ id := "R1", forwardMapping := ['A', 'B'], notches := [],
                         position := 0, ringSetting := 0 }],
        reflectorSpec := { id := "UKW", mapping := ['B', 'A'] },
        plugboardPairs := [], currentRotorPositions := [] }).isSome = true
    ∧ (7 : Int) ≠ 1 := by
  refine ⟨by decide, by decide⟩

/-- Claim C6, amended: the JSON import paths (`UnmarshalJSON`, hence
`NewFromJSON`/`LoadSettingsFromJSON`) fail for every `schema_version ≠ 1`,
but the direct settings-value import (`LoadSettings`/`NewFromSettings`)
ignores the schema version entirely: its success does not depend on it. -/
theorem c6_schema_version_check :
    (∀ js : JsonSettings, js.schemaVersion ≠ 1 →
      unmarshalSettings js = none ∧ newFromJSON js = none)
    ∧ ∀ (s : EnigmaSettings) (v : Int),
        (Enigma.loadSettings { s with schemaVersion := v }).isSome
          = (Enigma.loadSettings s).isSome := by
  constructor
  · intro js h
    have hu : unmarshalSettings js = none := by
      unfold unmarshalSettings
      rw [if_pos h]
    refine ⟨hu, ?_⟩
    unfold newFromJSON
    rw [hu]
    rfl
  · intro s v
    unfold Enigma.loadSettings
    dsimp only
    refine isSome_bind_congr _ _ _ (fun alph => ?_)
    refine isSome_bind_congr _ _ _ (fun rotors => ?_)
    refine isSome_bind_congr _ _ _ (fun refl2 => ?_)
    refine isSome_bind_congr _ _ _ (fun pb => ?_)
    refine isSome_bind_congr _ _ _ (fun rotors2 => ?_)
    rfl

/-- Witness for `c6_schema_version_check`: version 2 is refused on the JSON
path. -/
theorem c6_schema_version_check_witness :
    unmarshalSettings
      { schemaVersion := 2, alphabet := ['A', 'B'], rotorSpecs := [],
        reflectorSpec := { id := "UKW", mapping := ['B', 'A'] },
        plugboardPairs := [], currentRotorPositions := [] } = none :=
  (c6_schema_version_check.1 _ (by decide)).1

/-! ## Claim C7: at least one rotor -/

/-- Counterexample to claim C7 as stated: `LoadSettings` never checks for an
empty `RotorSpecs` list, so `NewFromSettings` happily returns a rotor-less
engine. -/
theorem c7_counterexample :
    (newFromSettings
      { schemaVersion := 1, alphabet := ['A', 'B'], rotorSpecs := [],
        reflectorSpec := { id := "UKW", mapping := ['B', 'A'] },
        plugboardPairs := [], currentRotorPositions := [] }).map Enigma.getRotorCount
      = some 0 := by decide

/-- Claim C7, amended: engines built via `New` always contain at least one
rotor (`New` fails otherwise); engines restored via
`NewFromSettings`/`NewFromJSON` contain exactly as many rotors as the
imported `rotor_specs` list, which may be empty — that path does NOT enforce
the invariant. -/
theorem c7_engine_rotor_count :
    (∀ (alph : Option Alphabet) (refl : Option Reflector) (pb : Option Plugboard),
      newEngine alph [] refl pb = none)
    ∧ ∀ (s : EnigmaSettings) (e : Enigma), Enigma.loadSettings s = some e →
        e.getRotorCount = s.rotorSpecs.length := by
  constructor
  · intro alph refl pb
    cases alph with
    | none => rfl
    | some a => rfl
  · intro s e h
    unfold Enigma.loadSettings at h
    simp only [Option.bind_eq_bind, Option.bind_eq_some, Option.some_inj] at h
    obtain ⟨alph, halph, rotors, hrotors, refl, hrefl, pb, hpb, rotors2, hrotors2, hrec⟩ := h
    have hlen : rotors.length = s.rotorSpecs.length := mapOpt_length hrotors
    have hlen2 : rotors2.length = rotors.length := by
      unfold Enigma.loadPositions at hrotors2
      split at hrotors2
      · split at hrotors2
        · exact Option.noConfusion hrotors2
        · rename_i hne
          simp only [Option.some_inj] at hrotors2
          rw [← hrotors2, List.length_zipWith]
          omega
      · simp only [Option.some_inj] at hrotors2
        rw [← hrotors2]
    rw [← hrec]
    show rotors2.length = s.rotorSpecs.length
    omega

/-- Witness for `c7_engine_rotor_count`: a one-rotor settings value restores
to a one-rotor engine. -/
theorem c7_engine_rotor_count_witness :
    ∃ e : Enigma, Enigma.loadSettings
      { schemaVersion := 1, alphabet := ['A', 'B'],
        rotorSpecs := [{ id := "R1", forwardMapping := ['A', 'B'], notches := [],
                         position := 0, ringSetting := 0 }],
        reflectorSpec := { id := "UKW", mapping := ['B', 'A'] },
        plugboardPairs := [], currentRotorPositions := [] } = some e
      ∧ e.getRotorCount = 1 := by
  have hsome : (Enigma.loadSettings
      { schemaVersion := 1, alphabet := ['A', 'B'],
        rotorSpecs := [{ id := "R1", forwardMapping := ['A', 'B'], notches := [],
                         position := 0, ringSetting := 0 }],
        reflectorSpec := { id := "UKW", mapping := ['B', 'A'] },
        plugboardPairs := [], currentRotorPositions := [] }).isSome = true := by decide
  obtain ⟨e, he⟩ := Option.isSome_iff_exists.mp hsome
  exact ⟨e, he, c7_engine_rotor_count.2 _ e he⟩

/-! ## Claim C3: settings round trip and the non-ASCII JSON failure -/

/-- Evaluation for claim C3: over the alphabet `A B à è` with the plugboard
pair `à↔è`, the direct value-level round trip
`NewFromSettings(GetSettings(e))` succeeds, but the JSON round trip
`NewFromJSON(SaveSettingsToJSON(e))` FAILS: `UnmarshalJSON` validates each
plugboard key/value with Go `len` (UTF-8 bytes), and `len("à") = 2`. -/
theorem c3_json_roundtrip_nonascii :
    ((newEngine (some ⟨['A', 'B', 'à', 'è']⟩)
        [{ id := "R1", forwardMap := [0, 1, 2, 3], backwardMap := [0, 1, 2, 3],
           notches := [], position := 0, ringSetting := 0, size := 4 }]
        (some { id := "UKW", mapping := [1, 0, 3, 2], size := 4 })
        (some { alphabet := ⟨['A', 'B', 'à', 'è']⟩, mapping := [(2, 3), (3, 2)],
                pairs := [(2, 3), (3, 2)], size := 4 })).bind
      (fun e => (e.getSettings).bind Enigma.loadSettings)).isSome = true
    ∧ ((newEngine (some ⟨['A', 'B', 'à', 'è']⟩)
        [{ id := "R1", forwardMap := [0, 1, 2, 3], backwardMap := [0, 1, 2, 3],
           notches := [], position := 0, ringSetting := 0, size := 4 }]
        (some { id := "UKW", mapping := [1, 0, 3, 2], size := 4 })
        (some { alphabet := ⟨['A', 'B', 'à', 'è']⟩, mapping := [(2, 3), (3, 2)],
                pairs := [(2, 3), (3, 2)], size := 4 })).bind
      (fun e => (e.saveSettingsToJSON).bind newFromJSON)) = none := by
  refine ⟨by decide, by decide⟩

/-- Witness for `c5_rotor_offset_formula` at a concrete rotor and input. -/
theorem c5_rotor_offset_formula_witness :
    let r : Rotor := { id := "T", forwardMap := [0, 2, 1, 3], backwardMap := [0, 2, 1, 3],
                       notches := [], position := 1, ringSetting := 0, size := 4 }
    ((r.forward 0 : Nat) : Int)
      = (((r.forwardMap.getD
            ((((0 : Int) + ((r.position : Int) - (r.ringSetting : Int))) % (r.size : Int)).toNat) 0 : Nat) : Int)
          - ((r.position : Int) - (r.ringSetting : Int))) % (r.size : Int) := by
  intro r
  exact (c5_rotor_offset_formula r (by decide) (by decide) 0 (by decide)).1

/-! ## Alphabet auto-detection (AutoDetectFromText) -/

/-- `strings.ReplaceAll(text, "\r\n", "\n")`: non-overlapping left-to-right
replacement. -/
def replaceCRLF : List Char → List Char
  | [] => []
  | '\r' :: '\n' :: rest => '\n' :: replaceCRLF rest
  | c :: rest => c :: replaceCRLF rest

/-- `strings.ReplaceAll(text, "\r", "\n")` (single-rune pattern). -/
def replaceCR (s : List Char) : List Char :=
  s.map (fun c => if c = '\r' then '\n' else c)

/-- `unicode.IsSpace` restricted to the Latin-1 range, which is where the
alphabets and texts of the modelled flows live (the full Unicode space
property adds further code points the claims never touch). -/
def goIsSpace (c : Char) : Bool :=
  c = ' ' || c = '\t' || c = '\n' || c.toNat = 0x0B || c.toNat = 0x0C || c = '\r'
    || c.toNat = 0x85 || c.toNat = 0xA0

/-- `strings.TrimSpace`. -/
def trimSpace (s : List Char) : List Char :=
  ((s.dropWhile goIsSpace).reverse.dropWhile goIsSpace).reverse

/-- `PreprocessTextForAutoDetection`. -/
def preprocessTextForAutoDetection (s : List Char) : List Char :=
  trimSpace (replaceCR (replaceCRLF s))

/-- `isControlCharacter`. -/
def isControlCharacter (c : Char) : Bool :=
  if c = ' ' || c = '\t' || c = '\n' then false
  else (c.toNat ≤ 31) || (127 ≤ c.toNat && c.toNat ≤ 159)

/-- The collection loop of `AutoDetectFromText`: skip control characters
(under the default `excludeControl`), insert unseen runes into the set
(modelled in insertion order — Go's map iteration order is arbitrary, and
the later sort canonicalizes it), and break once `maxSize` entries exist. -/
def collectUnique (maxSize : Nat) (excludeControl : Bool) :
    List Char → List Char → List Char
  | acc, [] => acc
  | acc, c :: rest =>
    if excludeControl && isControlCharacter c then collectUnique maxSize excludeControl acc rest
    else
      let acc2 := if acc.contains c then acc else acc ++ [c]
      if maxSize ≤ acc2.length then acc2
      else collectUnique maxSize excludeControl acc2 rest

/-- The inner loop `for j := i+1; j < len; j++ { if a[i] > a[j] swap }` of
the sort in `AutoDetectFromText`: threading the evolving value of `a[i]`
(swaps write the old `a[i]` into position `j`), it returns the final `a[i]`
(the minimum) and the transformed suffix. -/
def selectMinLoop : Char → List Char → Char × List Char
  | x, [] => (x, [])
  | x, y :: ys =>
    if y < x then
      let r := selectMinLoop y ys
      (r.1, x :: r.2)
    else
      let r := selectMinLoop x ys
      (r.1, y :: r.2)

/-- The outer loop of the exchange sort, with explicit fuel (`= length`) so
the definition is structural.  `exchangeSortGo (length l) l` is the sorted
list. -/
def exchangeSortGo : Nat → List Char → List Char
  | _, [] => []
  | 0, l => l
  | Nat.succ fuel, x :: xs =>
    let r := selectMinLoop x xs
    r.1 :: exchangeSortGo fuel r.2

/-- The in-place sort of `AutoDetectFromText` (sort by code point). -/
def exchangeSort (l : List Char) : List Char :=
  exchangeSortGo l.length l

/-- The padding search: starting from `' '` (code point 32), scan upward for
a code point not in the collected set; fail past `0x10000`.  Code points are
compared as numbers (Go runes are plain int32 values).  The fuel
`0x10001 - p` makes the recursion structural and never runs out before the
`> 0x10000` check fires. -/
def findPaddingGo (used : List Nat) : Nat → Nat → Option Nat
  | _, 0 => none
  | p, Nat.succ fuel =>
    if used.contains p then
      if p + 1 > 0x10000 then none else findPaddingGo used (p + 1) fuel
    else some p

/-- The padding-character loop of `AutoDetectFromText`. -/
def findPadding (used : List Nat) (p : Nat) : Option Nat :=
  findPaddingGo used p (0x10001 - p)

/-- `alphabet.AutoDetectFromText` with the default options
(`maxSize = 1000`, `addPadding = true`, `excludeControl = true`): reject
empty text, preprocess, collect the distinct runes, reject when none
survive, sort by code point, and append a padding rune when the count is
odd. -/
def autoDetectFromText (text : List Char) : Option Alphabet :=
  if text.isEmpty then none
  else
    let text2 := preprocessTextForAutoDetection text
    let uniq := collectUnique 1000 true [] text2
    if uniq.isEmpty then none
    else
      let sorted := exchangeSort uniq
      if sorted.length % 2 ≠ 0 then
        match findPadding (uniq.map Char.toNat) 32 with
        | none => none
        | some p => Alphabet.new (sorted ++ [Char.ofNat p])
      else Alphabet.new sorted

/-! ## Claim C10: auto-detection determinism, padding, empty input -/

theorem selectMinLoop_length : ∀ (x : Char) (xs : List Char),
    (selectMinLoop x xs).2.length = xs.length := by
  intro x xs
  induction xs generalizing x with
  | nil => rfl
  | cons y ys ih =>
    unfold selectMinLoop
    split
    · simp [ih y]
    · simp [ih x]

theorem selectMinLoop_perm : ∀ (x : Char) (xs : List Char),
    ((selectMinLoop x xs).1 :: (selectMinLoop x xs).2).Perm (x :: xs) := by
  intro x xs
  induction xs generalizing x with
  | nil => exact List.Perm.refl _
  | cons y ys ih =>
    unfold selectMinLoop
    split
    · show ((selectMinLoop y ys).1 :: x :: (selectMinLoop y ys).2).Perm (x :: y :: ys)
      exact (List.Perm.swap x (selectMinLoop y ys).1 (selectMinLoop y ys).2).trans
        ((ih y).cons x)
    · show ((selectMinLoop x ys).1 :: y :: (selectMinLoop x ys).2).Perm (x :: y :: ys)
      exact (List.Perm.swap y (selectMinLoop x ys).1 (selectMinLoop x ys).2).trans
        (((ih x).cons y).trans (List.Perm.swap x y ys))

theorem selectMinLoop_min : ∀ (x : Char) (xs : List Char),
    (selectMinLoop x xs).1 ≤ x ∧ ∀ z ∈ (selectMinLoop x xs).2, (selectMinLoop x xs).1 ≤ z := by
  intro x xs
  induction xs generalizing x with
  | nil => exact ⟨le_refl x, by intro z hz; simp [selectMinLoop] at hz⟩
  | cons y ys ih =>
    unfold selectMinLoop
    split
    · rename_i hyx
      dsimp only
      obtain ⟨h1, h2⟩ := ih y
      refine ⟨h1.trans (le_of_lt hyx), ?_⟩
      intro z hz
      rcases List.mem_cons.mp hz with rfl | hm
      · exact h1.trans (le_of_lt hyx)
      · exact h2 z hm
    · rename_i hyx
      dsimp only
      obtain ⟨h1, h2⟩ := ih x
      refine ⟨h1, ?_⟩
      intro z hz
      rcases List.mem_cons.mp hz with rfl | hm
      · exact h1.trans (le_of_not_lt hyx)
      · exact h2 z hm

theorem exchangeSortGo_perm : ∀ (fuel : Nat) (l : List Char), l.length ≤ fuel →
    (exchangeSortGo fuel l).Perm l := by
  intro fuel
  induction fuel with
  | zero =>
    intro l hl
    cases l with
    | nil => exact List.Perm.refl _
    | cons x xs => simp at hl
  | succ fuel ih =>
    intro l hl
    cases l with
    | nil => exact List.Perm.refl _
    | cons x xs =>
      show ((selectMinLoop x xs).1 :: exchangeSortGo fuel (selectMinLoop x xs).2).Perm (x :: xs)
      have hrec := ih (selectMinLoop x xs).2
        (by rw [selectMinLoop_length]; simpa using hl)
      exact (hrec.cons _).trans (selectMinLoop_perm x xs)

theorem exchangeSortGo_sorted : ∀ (fuel : Nat) (l : List Char), l.length ≤ fuel →
    List.Sorted (· ≤ ·) (exchangeSortGo fuel l) := by
  intro fuel
  induction fuel with
  | zero =>
    intro l hl
    cases l with
    | nil => exact List.sorted_nil
    | cons x xs => simp at hl
  | succ fuel ih =>
    intro l hl
    cases l with
    | nil => exact List.sorted_nil
    | cons x xs =>
      show List.Sorted (· ≤ ·)
        ((selectMinLoop x xs).1 :: exchangeSortGo fuel (selectMinLoop x xs).2)
      have hlen : (selectMinLoop x xs).2.length ≤ fuel := by
        rw [selectMinLoop_length]; simpa using hl
      refine List.sorted_cons.mpr ⟨?_, ih _ hlen⟩
      intro b hb
      have hbmem : b ∈ (selectMinLoop x xs).2 := (exchangeSortGo_perm fuel _ hlen).mem_iff.mp hb
      exact (selectMinLoop_min x xs).2 b hbmem

theorem exchangeSort_perm (l : List Char) : (exchangeSort l).Perm l :=
  exchangeSortGo_perm l.length l (le_refl _)

theorem exchangeSort_sorted (l : List Char) : List.Sorted (· ≤ ·) (exchangeSort l) :=
  exchangeSortGo_sorted l.length l (le_refl _)

theorem exchangeSort_perm_congr {l1 l2 : List Char} (h : l1.Perm l2) :
    exchangeSort l1 = exchangeSort l2 :=
  List.eq_of_perm_of_sorted ((exchangeSort_perm l1).trans (h.trans (exchangeSort_perm l2).symm))
    (exchangeSort_sorted l1) (exchangeSort_sorted l2)

theorem collectUnique_nodup (maxSize : Nat) (ec : Bool) :
    ∀ (text acc : List Char), acc.Nodup → (collectUnique maxSize ec acc text).Nodup := by
  intro text
  induction text with
  | nil => intro acc h; exact h
  | cons c rest ih =>
    intro acc h
    unfold collectUnique
    split
    · exact ih acc h
    · have hacc2 : (if acc.contains c then acc else acc ++ [c]).Nodup := by
        split
        · exact h
        · rename_i hmem
          rw [List.nodup_append]
          refine ⟨h, List.nodup_singleton c, ?_⟩
          intro a ha hb
          rw [List.mem_singleton] at hb
          subst hb
          exact hmem (by simpa using List.elem_iff.mpr ha)
      have key : ∀ l : List Char, l.Nodup →
          (if maxSize ≤ l.length then l else collectUnique maxSize ec l rest).Nodup := by
        intro l hl
        split
        · exact hl
        · exact ih l hl
      exact key _ hacc2

theorem Alphabet.new_some {l : List Char} {a : Alphabet} (h : Alphabet.new l = some a) :
    a.runes = l ∧ l.Nodup := by
  unfold Alphabet.new at h
  split at h
  · exact Option.noConfusion h
  · split at h
    · rename_i hnd
      simp only [Option.some_inj] at h
      rw [← h]
      exact ⟨rfl, hnd⟩
    · exact Option.noConfusion h

/-- Counterexample to claim C10 as stated: detecting from `"ABC"` collects
three symbols, sorts them, and then appends the padding symbol `' '` at the
END, so the returned alphabet's symbol order `A B C ' '` is NOT sorted by
code point. -/
theorem c10_counterexample :
    (autoDetectFromText ['A', 'B', 'C']).map Alphabet.runes = some ['A', 'B', 'C', ' ']
    ∧ ¬ List.Sorted (fun a b : Char => a < b) ['A', 'B', 'C', ' '] := by
  refine ⟨by decide, by decide⟩

/-- Claim C10, amended: auto-detection with default options is deterministic
(the sort gives the same list for every collection order of the same symbol
set); the returned alphabet is the code-point-sorted list of collected
symbols with the padding symbol, when one is added, appended at the END
(hence possibly out of order); any successfully returned alphabet has even
size; and detecting from empty text fails. -/
theorem c10_autodetect :
    (∀ l1 l2 : List Char, l1.Perm l2 → exchangeSort l1 = exchangeSort l2)
    ∧ (∀ (text : List Char) (a : Alphabet), autoDetectFromText text = some a →
        a.size % 2 = 0
        ∧ (List.Sorted (fun x y : Char => x < y) a.runes
           ∨ ∃ pre pad, a.runes = pre ++ [pad]
              ∧ List.Sorted (fun x y : Char => x < y) pre))
    ∧ autoDetectFromText [] = none := by
  refine ⟨fun l1 l2 h => exchangeSort_perm_congr h, ?_, rfl⟩
  intro text a h
  unfold autoDetectFromText at h
  split at h
  · exact Option.noConfusion h
  · dsimp only at h
    split at h
    · exact Option.noConfusion h
    · rename_i hne
      have hnodup : (collectUnique 1000 true [] (preprocessTextForAutoDetection text)).Nodup :=
        collectUnique_nodup 1000 true _ [] List.nodup_nil
      have hsortnd : (exchangeSort
          (collectUnique 1000 true [] (preprocessTextForAutoDetection text))).Nodup :=
        (exchangeSort_perm _).nodup_iff.mpr hnodup
      have hsorted : List.Sorted (fun x y : Char => x < y)
          (exchangeSort (collectUnique 1000 true [] (preprocessTextForAutoDetection text))) :=
        (exchangeSort_sorted _).lt_of_le hsortnd
      split at h
      · rename_i hodd
        cases hf : findPadding ((collectUnique 1000 true []
            (preprocessTextForAutoDetection text)).map Char.toNat) 32 with
        | none => rw [hf] at h; exact Option.noConfusion h
        | some p =>
          rw [hf] at h
          obtain ⟨hr, hnd⟩ := Alphabet.new_some h
          constructor
          · show a.runes.length % 2 = 0
            rw [hr, List.length_append, List.length_singleton]
            have h1 : (exchangeSort (collectUnique 1000 true []
                (preprocessTextForAutoDetection text))).length % 2 ≠ 0 := hodd
            omega
          · exact Or.inr ⟨_, Char.ofNat p, hr, hsorted⟩
      · rename_i heven
        obtain ⟨hr, hnd⟩ := Alphabet.new_some h
        constructor
        · show a.runes.length % 2 = 0
          rw [hr]
          have h1 : ¬ (exchangeSort (collectUnique 1000 true []
              (preprocessTextForAutoDetection text))).length % 2 ≠ 0 := heven
          omega
        · exact Or.inl (hr ▸ hsorted)

/-- Witness for `c10_autodetect`: sorting is collection-order independent on
a two-symbol set, and detecting from `"BA"` yields an even-sized alphabet. -/
theorem c10_autodetect_witness :
    exchangeSort ['B', 'A'] = exchangeSort ['A', 'B']
    ∧ ∃ a : Alphabet, autoDetectFromText ['B', 'A'] = some a ∧ a.size % 2 = 0 := by
  constructor
  · exact c10_autodetect.1 ['B', 'A'] ['A', 'B'] (by decide)
  · have hsome : (autoDetectFromText ['B', 'A']).isSome = true := by decide
    obtain ⟨a, ha⟩ := Option.isSome_iff_exists.mp hsome
    exact ⟨a, ha, (c10_autodetect.2.1 ['B', 'A'] a ha).1⟩

end Enigoma

namespace Enigoma

example : Alphabet.new ['A', 'B', 'A'] = none := by decide

example : (Alphabet.new ['C', 'A', 'B']).map Alphabet.size = some 3 := by decide

example : (Alphabet.new ['C', 'A', 'B']).bind (fun a => a.runeToIndex 'A') = some 1 := by
  decide

example : (Alphabet.new ['C', 'A', 'B']).bind (fun a => a.stringToIndices ['C', 'C', 'A'])
    = some [0, 0, 1] := by decide

-- duplicate output rune in the forward mapping is rejected
example : (Alphabet.new ['A', 'B', 'C']).bind
    (fun a => Rotor.newRotor "R" a ['B', 'B', 'C'] []) = none := by decide

-- a valid rotor: forward of 0 at position 1 (wiring A→A, B→C, C→B)
example : ((Alphabet.new ['A', 'B', 'C']).bind
    (fun a => Rotor.newRotor "R" a ['A', 'C', 'B'] [])).map
      (fun r => (r.setPosition 1).forward 0) = some 1 := by decide

end Enigoma
